import Mathlib

/- Verification of the MFUPSI benchmark core (finite-field utilities and the
   Gaussian-elimination based linear-system solver) against its specification.

   The C++ sources are shallowly embedded: `uint64_t` values are modelled as
   natural numbers below 2^64, machine wrap-around is written as an explicit
   `% 2 ^ 64` (or `% 2 ^ 128` where the C++ widens to `__uint128_t`), vectors
   and matrices are lists, and the imperative loops become structural
   recursions on an explicit iteration count so that all definitions are
   executable and kernel-reducible. -/

namespace Utils

/-- Embedding of `Utils::add_mod`: the operands are widened to 128 bits before
the reduction, so for `uint64_t` inputs the sum is exact. -/
def add_mod (a b q : ℕ) : ℕ := (a + b) % q

/-- Embedding of `Utils::sub_mod`: the C++ computes
`(__uint128_t)a + ((__uint128_t)q - (__uint128_t)b)` and reduces mod `q`;
both 128-bit operations wrap mod `2^128`, which is written out explicitly. -/
def sub_mod (a b q : ℕ) : ℕ := ((a + (q + 2 ^ 128 - b) % 2 ^ 128) % 2 ^ 128) % q

/-- Embedding of `Utils::mul_mod`: the 128-bit product of two `uint64_t`
values never wraps, so the reduction is exact. -/
def mul_mod (a b q : ℕ) : ℕ := (a * b) % q

/-- The `while (exp > 0)` loop of `Utils::fast_pow`, with the iteration count
made explicit as structural fuel; `exp` halves every round, so `exp` itself
bounds the number of iterations. -/
def fastPowAux (q : ℕ) : ℕ → ℕ → ℕ → ℕ → ℕ
  | 0, _, _, result => result
  | fuel + 1, b, exp, result =>
    if exp = 0 then result
    else fastPowAux q fuel ((b * b) % q) (exp / 2)
      (if exp % 2 = 1 then (result * b) % q else result)

/-- Embedding of `Utils::fast_pow`: binary exponentiation of `base^exp mod q`,
returning 0 when `q = 1`. -/
def fast_pow (base exp q : ℕ) : ℕ :=
  if q = 1 then 0 else fastPowAux q exp (base % q) exp 1

/-- Embedding of `Utils::mod_inverse`: Fermat inverse `a^(q-2) mod q`, with an
explicit `0` returned for `a = 0`. -/
def mod_inverse (a q : ℕ) : ℕ :=
  if a = 0 then 0 else fast_pow a (q - 2) q

/-- Embedding of `Utils::hash_partition`: xor with the key, xor-shift right by
33, multiply by the odd constant (wrapping mod `2^64`), xor-shift right by 33. -/
def hash_partition (k1 element : ℕ) : ℕ :=
  let h0 := Nat.xor k1 element
  let h1 := Nat.xor h0 (h0 >>> 33)
  let h2 := (h1 * 11400714819323198485) % 2 ^ 64
  Nat.xor h2 (h2 >>> 33)

/-- Embedding of `Utils::prf_value`: the same avalanche mix as
`hash_partition`, written out independently as in the source. -/
def prf_value (key input : ℕ) : ℕ :=
  let h0 := Nat.xor key input
  let h1 := Nat.xor h0 (h0 >>> 33)
  let h2 := (h1 * 11400714819323198485) % 2 ^ 64
  Nat.xor h2 (h2 >>> 33)

/-- Embedding of `Utils::sparse_vector`: a zero vector of length `dimension`
with width-`band_width` band written at offset
`hash_partition k2 element % (dimension - band_width + 1)`; the index
`element + i` is a `uint64_t` sum and wraps mod `2^64`. -/
def sparse_vector (k2 element dimension band_width : ℕ) : List ℕ :=
  let h_pos := hash_partition k2 element
  let pos := h_pos % (dimension - band_width + 1)
  (List.range band_width).foldl
    (fun v i => v.set (pos + i)
      (hash_partition (Nat.xor k2 ((element + i) % 2 ^ 64)) element % 2))
    (List.replicate dimension 0)

end Utils

namespace Matrix

/-- One row of the matrix `M`, extended by its target value, exactly as the
augmented matrix `[M | y]` of `Matrix::gaussian_elimination` is filled in. -/
def origRow (M : List (List ℕ)) (y : List ℕ) (d1 i : ℕ) : List ℕ :=
  (List.range d1).map (fun j => (M.getD i []).getD j 0) ++ [y.getD i 0]

/-- The augmented matrix `[M | y]` built at the start of
`Matrix::gaussian_elimination`. -/
def build_augmented (M : List (List ℕ)) (y : List ℕ) (d1 : ℕ) : List (List ℕ) :=
  (List.range M.length).map (origRow M y d1)

/-- The pivot search of the forward-elimination loop: scan rows from `row`
for `rem` more rows, returning the first whose entry in column `col` is
nonzero. -/
def find_pivot (aug : List (List ℕ)) (col : ℕ) : ℕ → ℕ → Option ℕ
  | _, 0 => none
  | row, rem + 1 =>
    if (aug.getD row []).getD col 0 ≠ 0 then some row
    else find_pivot aug col (row + 1) rem

/-- `std::swap(augmented[i], augmented[j])`. -/
def swap_rows (l : List (List ℕ)) (i j : ℕ) : List (List ℕ) :=
  (l.set i (l.getD j [])).set j (l.getD i [])

/-- Pivot normalization: multiply every entry from column `col` rightward by
`pinv` modulo `q`, leaving the entries left of `col` untouched. -/
def scale_from (col pinv q : ℕ) (r : List ℕ) : List ℕ :=
  r.take col ++ (r.drop col).map (fun v => Utils.mul_mod v pinv q)

/-- Row elimination: subtract `factor` times the pivot row from `r`, on every
entry from column `col` rightward; rows whose factor is already zero are left
untouched, as in the source. -/
def elim_row (col q : ℕ) (prow r : List ℕ) : List ℕ :=
  let factor := r.getD col 0
  if factor = 0 then r
  else r.take col ++
    List.zipWith (fun a b => Utils.sub_mod a (Utils.mul_mod factor b q) q)
      (r.drop col) (prow.drop col)

/-- The body of a successful pivot iteration: swap row `best` into the pivot
position, normalize the pivot row with the modular inverse of the pivot, and
eliminate the column below it. -/
def pivot_step (q col p best : ℕ) (aug : List (List ℕ)) : List (List ℕ) :=
  let aug1 := swap_rows aug p best
  let pivot := (aug1.getD p []).getD col 0
  let pinv := Utils.mod_inverse pivot q
  let prow := scale_from col pinv q (aug1.getD p [])
  let aug2 := aug1.set p prow
  (List.range aug2.length).map
    (fun i => if i ≤ p then aug2.getD i [] else elim_row col q prow (aug2.getD i []))

/-- One iteration of the forward-elimination column loop: find the pivot,
swap it into place, normalize it, and eliminate the column below it. -/
def fe_step (q col : ℕ) (aug : List (List ℕ)) (p : ℕ) : List (List ℕ) × ℕ :=
  match find_pivot aug col p (aug.length - p) with
  | none => (aug, p)
  | some best => (pivot_step q col p best aug, p + 1)

/-- The forward-elimination loop `for (col = 0; col < d1 && pivot_row < m; col++)`,
with the remaining column count as structural fuel. -/
def fe_loop (q : ℕ) : ℕ → ℕ → List (List ℕ) → ℕ → List (List ℕ) × ℕ
  | 0, _, aug, p => (aug, p)
  | rem + 1, col, aug, p =>
    if p < aug.length then
      let s := fe_step q col aug p
      fe_loop q rem (col + 1) s.1 s.2
    else (aug, p)

/-- The leading-column scan of back substitution: first index `j` (scanning
`rem` columns from `j`) whose entry is nonzero. -/
def find_nonzero (row : List ℕ) : ℕ → ℕ → Option ℕ
  | _, 0 => none
  | j, rem + 1 =>
    if row.getD j 0 ≠ 0 then some j else find_nonzero row (j + 1) rem

/-- The residual accumulation of back substitution: starting from `s`,
subtract `row[j] * res[j]` (mod `q`) for `rem` columns from `j` upward. -/
def residual (q : ℕ) (row res : List ℕ) : ℕ → ℕ → ℕ → ℕ
  | _, 0, s => s
  | j, rem + 1, s =>
    residual q row res (j + 1) rem
      (Utils.sub_mod s (Utils.mul_mod (row.getD j 0) (res.getD j 0) q) q)

/-- The back-substitution loop, processing rows `k-1, k-2, ..., 0`: find the
row's leading column, compute the residual of the right-hand side, and solve
for that variable by multiplying with the pivot's modular inverse. -/
def back_sub (q d1 : ℕ) (aug : List (List ℕ)) : ℕ → List ℕ → List ℕ
  | 0, res => res
  | k + 1, res =>
    let row := aug.getD k []
    match find_nonzero row 0 d1 with
    | none => back_sub q d1 aug k res
    | some l =>
      let s := residual q row res (l + 1) (d1 - (l + 1)) (row.getD d1 0)
      let pivot := row.getD l 0
      let res' :=
        if pivot ≠ 0 then res.set l (Utils.mul_mod s (Utils.mod_inverse pivot q) q)
        else res
      back_sub q d1 aug k res'

/-- Embedding of `Matrix::gaussian_elimination`: build the augmented matrix,
run forward elimination over the `d1` columns, and back-substitute starting
from row `min(pivot_row - 1, d1 - 1)` into a zero-initialized result. -/
def gaussian_elimination (M : List (List ℕ)) (y : List ℕ) (q : ℕ) : List ℕ :=
  if M.length = 0 then []
  else
    let d1 := (M.headD []).length
    let aug := build_augmented M y d1
    let fe := fe_loop q d1 0 aug 0
    back_sub q d1 fe.1 (min fe.2 d1) (List.replicate d1 0)

/-- Embedding of `Matrix::matrix_add`: componentwise `add_mod`, with the
result shape taken from the first operand. -/
def matrix_add (A B : List (List ℕ)) (q : ℕ) : List (List ℕ) :=
  (List.range A.length).map (fun i =>
    (List.range (A.headD []).length).map (fun j =>
      Utils.add_mod ((A.getD i []).getD j 0) ((B.getD i []).getD j 0) q))

/-- Embedding of `Matrix::zero_matrix`. -/
def zero_matrix (rows cols : ℕ) : List (List ℕ) :=
  List.replicate rows (List.replicate cols 0)

/-- Ghost-instrumented rows: each row of the augmented matrix paired with the
index of the original equation it descends from.  The arithmetic never reads
the tag; swaps carry it along, so after forward elimination the tags of the
first `pivot_row` positions are exactly the equations that received a pivot. -/
def tswap_rows (l : List (ℕ × List ℕ)) (i j : ℕ) : List (ℕ × List ℕ) :=
  (l.set i (l.getD j (0, []))).set j (l.getD i (0, []))

/-- The normalized pivot row produced when row `best` is swapped into the
pivot position at column `col`. -/
def prow_of (q col best : ℕ) (aug : List (ℕ × List ℕ)) : List ℕ :=
  scale_from col (Utils.mod_inverse ((aug.getD best (0, [])).2.getD col 0) q) q
    (aug.getD best (0, [])).2

/-- The effect of one successful pivot step on the tagged augmented matrix:
swap row `best` into position `p`, normalize it, and eliminate the column
below it. -/
def pivot_apply (q col p best : ℕ) (aug : List (ℕ × List ℕ)) : List (ℕ × List ℕ) :=
  let aug1 := tswap_rows aug p best
  let pr := aug1.getD p (0, [])
  let prow : ℕ × List ℕ :=
    (pr.1, scale_from col (Utils.mod_inverse (pr.2.getD col 0) q) q pr.2)
  let aug2 := aug1.set p prow
  (List.range aug2.length).map
    (fun i => if i ≤ p then aug2.getD i (0, [])
      else ((aug2.getD i (0, [])).1, elim_row col q prow.2 (aug2.getD i (0, [])).2))

/-- Tag-instrumented `fe_step`; the matrix part is computed exactly as in
`fe_step`, the tag rides along unchanged. -/
def tfe_step (q col : ℕ) (aug : List (ℕ × List ℕ)) (p : ℕ) : List (ℕ × List ℕ) × ℕ :=
  match find_pivot (aug.map Prod.snd) col p (aug.length - p) with
  | none => (aug, p)
  | some best => (pivot_apply q col p best aug, p + 1)

/-- Tag-instrumented `fe_loop`. -/
def tfe_loop (q : ℕ) : ℕ → ℕ → List (ℕ × List ℕ) → ℕ → List (ℕ × List ℕ) × ℕ
  | 0, _, aug, p => (aug, p)
  | rem + 1, col, aug, p =>
    if p < aug.length then
      let s := tfe_step q col aug p
      tfe_loop q rem (col + 1) s.1 s.2
    else (aug, p)

/-- The augmented matrix with each row tagged by its original equation index. -/
def tagged_augmented (M : List (List ℕ)) (y : List ℕ) (d1 : ℕ) : List (ℕ × List ℕ) :=
  (List.range M.length).map (fun i => (i, origRow M y d1 i))

/-- The indices of the original equations that receive a pivot during the
forward elimination performed by `gaussian_elimination M y q`. -/
def ge_pivot_tags (M : List (List ℕ)) (y : List ℕ) (q : ℕ) : List ℕ :=
  if M.length = 0 then []
  else
    let d1 := (M.headD []).length
    let fe := tfe_loop q d1 0 (tagged_augmented M y d1) 0
    (fe.1.take fe.2).map Prod.fst

/-- The dot product of the first `d1` coefficients of a row with a vector. -/
def dotc (d1 : ℕ) (r e : List ℕ) : ℕ :=
  ∑ j in Finset.range d1, r.getD j 0 * e.getD j 0

/-- A (coefficients ++ [target]) row of width `d1` is satisfied by `e` mod `q`. -/
def RowSat (q d1 : ℕ) (r e : List ℕ) : Prop :=
  dotc d1 r e ≡ r.getD d1 0 [MOD q]

/-- The forward-elimination loop invariant over the tagged augmented matrix:
row lengths and entry bounds, the echelon structure of the processed part
(pivot columns `cs`, strictly increasing, each normalized to 1 with zeros to
its left, and zeros below/left of the frontier), and the semantic invariant
relating each current row's equation to the original equation of the row it
descends from. -/
structure StInv (q d1 : ℕ) (M : List (List ℕ)) (y : List ℕ)
    (aug : List (ℕ × List ℕ)) (p col : ℕ) (cs : List ℕ) : Prop where
  hlen : aug.length = M.length
  hple : p ≤ aug.length
  hrowlen : ∀ i, i < aug.length → ((aug.getD i (0, [])).2).length = d1 + 1
  hbound : ∀ i, i < aug.length → ∀ j, j ≤ d1 → ((aug.getD i (0, [])).2).getD j 0 < q
  hzero : ∀ i, p ≤ i → i < aug.length → ∀ j, j < col → ((aug.getD i (0, [])).2).getD j 0 = 0
  hcs_len : cs.length = p
  hcs_lt : ∀ k, k < p → cs.getD k 0 < col
  hcs_mono : ∀ k k2, k < k2 → k2 < p → cs.getD k 0 < cs.getD k2 0
  hpiv_zero : ∀ k, k < p → ∀ j, j < cs.getD k 0 → ((aug.getD k (0, [])).2).getD j 0 = 0
  hpiv_one : ∀ k, k < p → ((aug.getD k (0, [])).2).getD (cs.getD k 0) 0 = 1
  hsem : ∀ e : List ℕ, (∀ i, i < p → RowSat q d1 ((aug.getD i (0, [])).2) e) →
    ∀ i, i < aug.length →
      (RowSat q d1 ((aug.getD i (0, [])).2) e ↔
        RowSat q d1 (origRow M y d1 (aug.getD i (0, [])).1) e)

end Matrix

namespace Aux

/-- Reading a mapped list with a mapped default commutes with the map. -/
theorem getD_map {α β : Type} (f : α → β) (l : List α) (i : ℕ) (d : α) :
    (l.map f).getD i (f d) = f (l.getD i d) := by
  induction l generalizing i with
  | nil => rfl
  | cons a t ih =>
    cases i with
    | zero => rfl
    | succ n => simpa using ih n

/-- Out-of-range reads return the default. -/
theorem getD_default {α : Type} (l : List α) (i : ℕ) (d : α) (h : l.length ≤ i) :
    l.getD i d = d := by
  induction l generalizing i with
  | nil => rfl
  | cons a t ih =>
    cases i with
    | zero => simp at h
    | succ n =>
      simp only [List.length_cons, Nat.succ_le_succ_iff] at h
      simpa using ih n h

/-- In-range reads are members of the list. -/
theorem getD_mem {α : Type} (l : List α) (i : ℕ) (d : α) (h : i < l.length) :
    l.getD i d ∈ l := by
  induction l generalizing i with
  | nil => simp at h
  | cons a t ih =>
    cases i with
    | zero => simp
    | succ n =>
      simp only [List.length_cons, Nat.succ_lt_succ_iff] at h
      simpa using Or.inr (ih n h)

/-- Reading the position just written by `set`. -/
theorem getD_set_self {α : Type} (l : List α) (i : ℕ) (a d : α) (h : i < l.length) :
    (l.set i a).getD i d = a := by
  induction l generalizing i with
  | nil => simp at h
  | cons x t ih =>
    cases i with
    | zero => rfl
    | succ n =>
      simp only [List.length_cons, Nat.succ_lt_succ_iff] at h
      simpa using ih n h

/-- Reading a position other than the one written by `set`. -/
theorem getD_set_ne {α : Type} (l : List α) (i j : ℕ) (a d : α) (h : i ≠ j) :
    (l.set i a).getD j d = l.getD j d := by
  induction l generalizing i j with
  | nil => rfl
  | cons x t ih =>
    cases i with
    | zero =>
      cases j with
      | zero => exact absurd rfl h
      | succ n => rfl
    | succ m =>
      cases j with
      | zero => rfl
      | succ n => simpa using ih m n (fun he => h (by omega))

/-- Reading an append inside the left part. -/
theorem getD_append_left {α : Type} (l₁ l₂ : List α) (i : ℕ) (d : α) (h : i < l₁.length) :
    (l₁ ++ l₂).getD i d = l₁.getD i d := by
  induction l₁ generalizing i with
  | nil => simp at h
  | cons a t ih =>
    cases i with
    | zero => rfl
    | succ n =>
      simp only [List.length_cons, Nat.succ_lt_succ_iff] at h
      simpa using ih n h

/-- Reading an append inside the right part. -/
theorem getD_append_right {α : Type} (l₁ l₂ : List α) (i : ℕ) (d : α) (h : l₁.length ≤ i) :
    (l₁ ++ l₂).getD i d = l₂.getD (i - l₁.length) d := by
  induction l₁ generalizing i with
  | nil => simp
  | cons a t ih =>
    cases i with
    | zero => simp at h
    | succ n =>
      simp only [List.length_cons, Nat.succ_le_succ_iff] at h
      simpa using ih n h

/-- Reading a `take` inside its range. -/
theorem getD_take {α : Type} (l : List α) (n i : ℕ) (d : α) (h : i < n) :
    (l.take n).getD i d = l.getD i d := by
  induction l generalizing n i with
  | nil => simp
  | cons a t ih =>
    cases n with
    | zero => simp at h
    | succ m =>
      cases i with
      | zero => rfl
      | succ k => simpa using ih m k (by omega)

/-- Reading a `drop` shifts the index. -/
theorem getD_drop {α : Type} (l : List α) (n i : ℕ) (d : α) :
    (l.drop n).getD i d = l.getD (n + i) d := by
  induction l generalizing n with
  | nil => simp
  | cons a t ih =>
    cases n with
    | zero => simp
    | succ m => simpa [Nat.succ_add] using ih m

/-- Reading a `zipWith` at an in-range index. -/
theorem getD_zipWith {α β γ : Type} (f : α → β → γ) (l₁ : List α) (l₂ : List β)
    (i : ℕ) (d : γ) (d₁ : α) (d₂ : β) (h₁ : i < l₁.length) (h₂ : i < l₂.length) :
    (List.zipWith f l₁ l₂).getD i d = f (l₁.getD i d₁) (l₂.getD i d₂) := by
  induction l₁ generalizing l₂ i with
  | nil => simp at h₁
  | cons a t ih =>
    cases l₂ with
    | nil => simp at h₂
    | cons b s =>
      cases i with
      | zero => rfl
      | succ n =>
        simp only [List.length_cons, Nat.succ_lt_succ_iff] at h₁ h₂
        simpa using ih s n h₁ h₂

/-- Reading a map over `List.range` at an in-range index. -/
theorem getD_range_map {α : Type} (f : ℕ → α) (n i : ℕ) (d : α) (h : i < n) :
    ((List.range n).map f).getD i d = f i := by
  induction n with
  | zero => simp at h
  | succ m ih =>
    rcases Nat.lt_succ_iff_lt_or_eq.mp h with h' | h'
    · rw [List.range_succ, List.map_append, getD_append_left]
      · exact ih h'
      · simpa using h'
    · subst h'
      rw [List.range_succ, List.map_append, getD_append_right] <;> simp

/-- Reading a replicate at an in-range index. -/
theorem getD_replicate {α : Type} (a d : α) (n i : ℕ) (h : i < n) :
    (List.replicate n a).getD i d = a := by
  induction n generalizing i with
  | zero => simp at h
  | succ m ih =>
    cases i with
    | zero => rfl
    | succ k => simpa [List.replicate_succ] using ih k (by omega)

/-- Lists are determined by length and `getD` reads. -/
theorem eq_of_getD {α : Type} (l₁ l₂ : List α) (d : α) (hlen : l₁.length = l₂.length)
    (h : ∀ i, i < l₁.length → l₁.getD i d = l₂.getD i d) : l₁ = l₂ := by
  induction l₁ generalizing l₂ with
  | nil =>
    cases l₂ with
    | nil => rfl
    | cons b s => simp at hlen
  | cons a t ih =>
    cases l₂ with
    | nil => simp at hlen
    | cons b s =>
      have h0 := h 0 (by simp)
      simp only [List.getD_cons_zero] at h0
      have ht : t = s := by
        refine ih s (by simpa using hlen) (fun i hi => ?_)
        simpa using h (i + 1) (by simpa using Nat.succ_lt_succ hi)
      rw [h0, ht]

/-- `set` commutes with `map`. -/
theorem map_set {α β : Type} (f : α → β) (l : List α) (n : ℕ) (a : α) :
    (l.set n a).map f = (l.map f).set n (f a) := by
  induction l generalizing n with
  | nil => rfl
  | cons x t ih =>
    cases n with
    | zero => rfl
    | succ m => simpa using ih m

/-- Maps of functions agreeing on the members coincide. -/
theorem map_congr_mem {α β : Type} (f g : α → β) (l : List α)
    (h : ∀ a ∈ l, f a = g a) : l.map f = l.map g := by
  induction l with
  | nil => rfl
  | cons x t ih =>
    simp only [List.map_cons]
    rw [h x (by simp), ih (fun a ha => h a (by simp [ha]))]

/-- Casting a remainder into `ZMod n` is the cast itself. -/
theorem cast_mod (a n : ℕ) : ((a % n : ℕ) : ZMod n) = (a : ZMod n) := by
  conv_rhs => rw [← Nat.mod_add_div a n]
  push_cast
  simp [ZMod.natCast_self]

/-- Equality of casts into `ZMod n` is congruence mod `n` (for positive `n`). -/
theorem natCast_eq_iff_modeq (a b n : ℕ) (hn : 0 < n) :
    ((a : ZMod n) = (b : ZMod n)) ↔ a ≡ b [MOD n] := by
  haveI : NeZero n := ⟨Nat.pos_iff_ne_zero.mp hn⟩
  constructor
  · intro h
    have := congrArg ZMod.val h
    simpa [ZMod.val_natCast] using this
  · intro h
    rw [← cast_mod a n, ← cast_mod b n, h]

end Aux

namespace Utils

/-- The fuel given to the exponentiation loop is sufficient: with at least
`exp` rounds available, the loop computes `result * b^exp mod q`. -/
theorem fastPowAux_eq (q : ℕ) (hq : 1 ≤ q) :
    ∀ fuel b exp result, exp ≤ fuel → result < q →
      fastPowAux q fuel b exp result = (result * b ^ exp) % q := by
  intro fuel
  induction fuel with
  | zero =>
    intro b exp result hle hr
    have : exp = 0 := Nat.le_zero.mp hle
    subst this
    simp [fastPowAux, Nat.mod_eq_of_lt hr]
  | succ n ih =>
    intro b exp result hle hr
    by_cases h0 : exp = 0
    · subst h0
      simp [fastPowAux, Nat.mod_eq_of_lt hr]
    · have hq0 : 0 < q := hq
      rw [fastPowAux, if_neg h0]
      have hexp2 : exp / 2 ≤ n := by omega
      have hr' : (if exp % 2 = 1 then (result * b) % q else result) < q := by
        by_cases hpar : exp % 2 = 1 <;> simp [hpar, Nat.mod_lt _ hq0, hr]
      rw [ih ((b * b) % q) (exp / 2) _ hexp2 hr']
      have hmod : ((if exp % 2 = 1 then (result * b) % q else result) *
          ((b * b) % q) ^ (exp / 2)) ≡ result * b ^ exp [MOD q] := by
        have hpow : ((b * b) % q) ^ (exp / 2) ≡ (b * b) ^ (exp / 2) [MOD q] :=
          (Nat.ModEq.pow _ (Nat.mod_modEq (b * b) q))
        have hres : (if exp % 2 = 1 then (result * b) % q else result) ≡
            result * b ^ (exp % 2) [MOD q] := by
          by_cases hpar : exp % 2 = 1
          · simpa [hpar] using (Nat.mod_modEq (result * b) q)
          · have : exp % 2 = 0 := by omega
            simp [hpar, this, Nat.ModEq.refl]
        calc (if exp % 2 = 1 then (result * b) % q else result) *
              ((b * b) % q) ^ (exp / 2)
            ≡ (result * b ^ (exp % 2)) * ((b * b) ^ (exp / 2)) [MOD q] :=
              hres.mul hpow
          _ = result * b ^ exp := by
              have hsplit : exp % 2 + 2 * (exp / 2) = exp := by omega
              rw [← pow_two b, ← pow_mul, mul_assoc, ← pow_add, hsplit]
      exact hmod

/-- `fast_pow` computes modular exponentiation. -/
theorem fast_pow_eq (base exp q : ℕ) (hq : 1 ≤ q) :
    fast_pow base exp q = base ^ exp % q := by
  by_cases h1 : q = 1
  · subst h1
    simp [fast_pow, Nat.mod_one]
  · have hq2 : 2 ≤ q := by omega
    rw [fast_pow, if_neg h1,
      fastPowAux_eq q hq exp (base % q) exp 1 le_rfl (by omega)]
    rw [one_mul, ← Nat.pow_mod]

/-- Fermat inversion: for a prime modulus and a nonzero reduced argument, the
value computed by `mod_inverse` is a genuine multiplicative inverse. -/
theorem mod_inverse_mul (a q : ℕ) (hq : Nat.Prime q) (h0 : a ≠ 0) (hlt : a < q) :
    (mod_inverse a q * a) % q = 1 := by
  haveI : Fact (Nat.Prime q) := ⟨hq⟩
  have hq2 : 2 ≤ q := hq.two_le
  have hq1 : 1 ≤ q := by omega
  rw [mod_inverse, if_neg h0, fast_pow_eq a (q - 2) q hq1]
  have hstep : (a ^ (q - 2) % q * a) % q = a ^ (q - 1) % q := by
    have h1 : a ^ (q - 2) % q * a % q = a ^ (q - 2) * a % q :=
      (Nat.mod_modEq (a ^ (q - 2)) q).mul_right a
    have h21 : q - 2 + 1 = q - 1 := by omega
    rw [h1, ← pow_succ, h21]
  rw [hstep]
  have hndvd : ¬ q ∣ a := by
    intro hdvd
    rcases hdvd with ⟨c, rfl⟩
    rcases Nat.eq_zero_or_pos c with hc | hc
    · exact h0 (by simp [hc])
    · have : q ≤ q * c := Nat.le_mul_of_pos_right q hc
      omega
  have hzm : (a : ZMod q) ≠ 0 := by
    intro hcast
    exact hndvd ((ZMod.natCast_zmod_eq_zero_iff_dvd a q).mp hcast)
  have hferm : (a : ZMod q) ^ (q - 1) = 1 := ZMod.pow_card_sub_one_eq_one hzm
  have hcast : ((a ^ (q - 1) : ℕ) : ZMod q) = ((1 : ℕ) : ZMod q) := by
    push_cast
    rw [hferm]
  have hmod : a ^ (q - 1) ≡ 1 [MOD q] :=
    (Aux.natCast_eq_iff_modeq _ _ q (by omega)).mp hcast
  calc a ^ (q - 1) % q = 1 % q := hmod
    _ = 1 := Nat.mod_eq_of_lt (by omega)

/-- `mod_inverse` of 1 is 1 for any modulus at least 2. -/
theorem mod_inverse_one (q : ℕ) (hq : 2 ≤ q) : mod_inverse 1 q = 1 := by
  rw [mod_inverse, if_neg (by omega), fast_pow_eq 1 (q - 2) q (by omega)]
  simp [Nat.mod_eq_of_lt hq]

end Utils

namespace Matrix

/-- Back substitution writes into the result vector in place, so it
preserves its length. -/
theorem back_sub_length (q d1 : ℕ) (aug : List (List ℕ)) :
    ∀ k res, (back_sub q d1 aug k res).length = res.length := by
  intro k
  induction k with
  | zero => intro res; rfl
  | succ n ih =>
    intro res
    rw [back_sub]
    cases find_nonzero (aug.getD n []) 0 d1 with
    | none => exact ih res
    | some l =>
      simp only
      by_cases hp : (aug.getD n []).getD l 0 ≠ 0
      · rw [if_pos hp, ih, List.length_set]
      · rw [if_neg hp, ih]

/-- On a nonempty system the solver always returns a vector of length `d1`
without any consistency check: whatever the eliminated rows look like, the
result is the back-substituted vector. -/
theorem ge_length (M : List (List ℕ)) (y : List ℕ) (q : ℕ) (hm : M ≠ []) :
    (gaussian_elimination M y q).length = (M.headD []).length := by
  have hlen : M.length ≠ 0 := fun h => hm (List.length_eq_zero.mp h)
  rw [gaussian_elimination, if_neg hlen]
  simp only
  rw [back_sub_length, List.length_replicate]

/-- With `d1 = 0` the solver performs no elimination at all and returns the
empty vector; dimension violations are never rejected or signalled. -/
theorem ge_d1_zero (M : List (List ℕ)) (y : List ℕ) (q : ℕ) (hm : M ≠ [])
    (hd : (M.headD []).length = 0) : gaussian_elimination M y q = [] := by
  have hlen : M.length ≠ 0 := fun h => hm (List.length_eq_zero.mp h)
  rw [gaussian_elimination, if_neg hlen]
  simp only [hd]
  rfl

end Matrix

namespace Utils

/-- The write loop of `sparse_vector`: folding in-bounds writes at distinct
positions `pos, pos+1, ..., pos+w-1` yields a vector that keeps its length
and equals the start vector away from the written band. -/
theorem foldl_set_band (f : ℕ → ℕ) (pos : ℕ) (start : List ℕ) :
    ∀ w, pos + w ≤ start.length →
      (((List.range w).foldl (fun v i => v.set (pos + i) (f i)) start).length
          = start.length ∧
        ∀ j, ((List.range w).foldl (fun v i => v.set (pos + i) (f i)) start).getD j 0
          = if pos ≤ j ∧ j < pos + w then f (j - pos) else start.getD j 0) := by
  intro w
  induction w with
  | zero =>
    intro hw
    constructor
    · rfl
    · intro j
      have : ¬ (pos ≤ j ∧ j < pos + 0) := by omega
      rw [if_neg this]
      rfl
  | succ n ih =>
    intro hw
    have hn : pos + n ≤ start.length := by omega
    obtain ⟨ihlen, ihget⟩ := ih hn
    rw [List.range_succ, List.foldl_append]
    simp only [List.foldl_cons, List.foldl_nil]
    constructor
    · rw [List.length_set, ihlen]
    · intro j
      by_cases hj : j = pos + n
      · subst hj
        rw [Aux.getD_set_self _ _ _ _ (by omega : pos + n < _)]
        · rw [if_pos (by omega)]
          congr 1
          omega
      · rw [Aux.getD_set_ne _ _ _ _ _ (fun he => hj he.symm), ihget]
        by_cases hband : pos ≤ j ∧ j < pos + n
        · rw [if_pos hband, if_pos (by omega)]
        · rw [if_neg hband, if_neg (by omega)]

end Utils

namespace Matrix

/-- `matrix_add` of a matrix given by reduced entries `B i j % q` adds the
other operand's entries into the residues. -/
theorem matrix_add_reduced (q r c : ℕ) (B : ℕ → ℕ → ℕ) (X : List (List ℕ)) :
    matrix_add ((List.range r).map (fun i => (List.range c).map (fun j => B i j % q))) X q
      = (List.range r).map (fun i => (List.range c).map (fun j =>
          (B i j + (X.getD i []).getD j 0) % q)) := by
  rcases Nat.eq_zero_or_pos r with hr | hr
  · subst hr
    rfl
  · have hlen : ((List.range r).map (fun i => (List.range c).map (fun j => B i j % q))).length = r := by
      simp
    have hhead : (((List.range r).map (fun i => (List.range c).map (fun j => B i j % q))).headD []).length = c := by
      obtain ⟨r', rfl⟩ := Nat.exists_eq_succ_of_ne_zero (Nat.pos_iff_ne_zero.mp hr)
      rw [List.range_succ_eq_map]
      simp
    rw [matrix_add, hlen, hhead]
    refine Aux.map_congr_mem _ _ _ (fun i hi => ?_)
    have hir : i < r := List.mem_range.mp hi
    refine Aux.map_congr_mem _ _ _ (fun j hj => ?_)
    have hjc : j < c := List.mem_range.mp hj
    rw [Aux.getD_range_map _ _ _ _ hir, Aux.getD_range_map _ _ _ _ hjc]
    rw [Utils.add_mod, Nat.mod_add_mod]

/-- Folding `matrix_add` over a list of matrices accumulates, entry by entry,
the plain sum of all the summands' entries, reduced mod `q`. -/
theorem foldl_matrix_add (q r c : ℕ) :
    ∀ (l : List (List (List ℕ))) (B : ℕ → ℕ → ℕ),
      l.foldl (fun acc X => matrix_add acc X q)
          ((List.range r).map (fun i => (List.range c).map (fun j => B i j % q)))
        = (List.range r).map (fun i => (List.range c).map (fun j =>
            (B i j + (l.map (fun X => (X.getD i []).getD j 0)).sum) % q)) := by
  intro l
  induction l with
  | nil => intro B; simp
  | cons X t ih =>
    intro B
    rw [List.foldl_cons, matrix_add_reduced, ih]
    refine Aux.map_congr_mem _ _ _ (fun i _ => ?_)
    refine Aux.map_congr_mem _ _ _ (fun j _ => ?_)
    rw [List.map_cons, List.sum_cons, Nat.add_assoc]

/-- `zero_matrix` in its reduced-entry form. -/
theorem zero_matrix_eq (r c q : ℕ) :
    zero_matrix r c
      = (List.range r).map (fun i => (List.range c).map (fun j => (fun _ _ => 0) i j % q)) := by
  refine Aux.eq_of_getD _ _ [] (by simp [zero_matrix]) (fun i hi => ?_)
  have hir : i < r := by simpa [zero_matrix] using hi
  rw [zero_matrix, Aux.getD_replicate _ _ _ _ hir, Aux.getD_range_map _ _ _ _ hir]
  refine Aux.eq_of_getD _ _ 0 (by simp) (fun j hj => ?_)
  have hjc : j < c := by simpa using hj
  rw [Aux.getD_replicate _ _ _ _ hjc, Aux.getD_range_map _ _ _ _ hjc, Nat.zero_mod]

end Matrix

/-- C2: for every prime q ≥ 2 and every a in [1, q),
`mul_mod (mod_inverse a q) a q = 1`, and `mod_inverse` computes the Fermat
inverse `a^(q-2) mod q` via binary exponentiation. -/
theorem claim2_theorem (a q : ℕ) (hq : Nat.Prime q) (h1 : 1 ≤ a) (h2 : a < q) :
    Utils.mul_mod (Utils.mod_inverse a q) a q = 1 ∧
      Utils.mod_inverse a q = a ^ (q - 2) % q := by
  constructor
  · exact Utils.mod_inverse_mul a q hq (by omega) h2
  · rw [Utils.mod_inverse, if_neg (by omega : ¬ a = 0),
      Utils.fast_pow_eq a (q - 2) q (by have := hq.two_le; omega)]

/-- Witness for C2 at q = 5, a = 3. -/
theorem claim2_witness :
    Nat.Prime 5 ∧ 1 ≤ 3 ∧ 3 < 5 ∧
      (Utils.mul_mod (Utils.mod_inverse 3 5) 3 5 = 1 ∧
        Utils.mod_inverse 3 5 = 3 ^ (5 - 2) % 5) :=
  ⟨by decide, by decide, by decide, claim2_theorem 3 5 (by decide) (by decide) (by decide)⟩

/-- C3 counterexample: on an InvalidDimension input (d1 = 0), the solver is
not rejected and signals nothing: `gaussian_elimination [[]] [5] 7` proceeds
normally and returns a value (the empty vector).  The embedding is a total
function into plain vectors because the C++ has no error path at all. -/
theorem claim3_counterexample : Matrix.gaussian_elimination [[]] [5] 7 = [] := by decide

/-- C3 amended: `gaussian_elimination` performs no dimension validation.
With d1 = 0 it proceeds normally — performing no elimination step — and
returns the empty vector instead of signalling a violation (rows longer than
d1 similarly have their excess entries silently ignored). -/
theorem claim3_theorem (M : List (List ℕ)) (y : List ℕ) (q : ℕ) (hm : M ≠ [])
    (hd : (M.headD []).length = 0) : Matrix.gaussian_elimination M y q = [] :=
  Matrix.ge_d1_zero M y q hm hd

/-- Witness for the amended C3 at a two-row, zero-width system. -/
theorem claim3_witness : Matrix.gaussian_elimination [[], []] [1, 2] 3 = [] :=
  claim3_theorem [[], []] [1, 2] 3 (by decide) (by decide)

/-- C5: for 1 ≤ w ≤ d1, `sparse_vector k2 x d1 w` is a length-d1 vector that
is zero outside a single contiguous band of width w starting at
`hash_partition k2 x mod (d1 - w + 1)`, and band position i holds
`hash_partition (k2 xor (x + i)) x mod 2`, a 0/1 value (the sum `x + i` is a
`uint64_t` sum and wraps mod 2^64). -/
theorem claim5_theorem (k2 x d1 w : ℕ) (hw : 1 ≤ w) (hwd : w ≤ d1) :
    (Utils.sparse_vector k2 x d1 w).length = d1 ∧
      (∀ j, j < d1 →
        (j < Utils.hash_partition k2 x % (d1 - w + 1) ∨
          Utils.hash_partition k2 x % (d1 - w + 1) + w ≤ j) →
        (Utils.sparse_vector k2 x d1 w).getD j 0 = 0) ∧
      (∀ i, i < w →
        (Utils.sparse_vector k2 x d1 w).getD
            (Utils.hash_partition k2 x % (d1 - w + 1) + i) 0
          = Utils.hash_partition (Nat.xor k2 ((x + i) % 2 ^ 64)) x % 2) ∧
      (∀ j, j < d1 → (Utils.sparse_vector k2 x d1 w).getD j 0 = 0 ∨
        (Utils.sparse_vector k2 x d1 w).getD j 0 = 1) := by
  have hposlt : Utils.hash_partition k2 x % (d1 - w + 1) < d1 - w + 1 :=
    Nat.mod_lt _ (by omega)
  have hbound : Utils.hash_partition k2 x % (d1 - w + 1) + w ≤
      (List.replicate d1 (0 : ℕ)).length := by
    rw [List.length_replicate]
    omega
  obtain ⟨hlen, hget⟩ := Utils.foldl_set_band
    (fun i => Utils.hash_partition (Nat.xor k2 ((x + i) % 2 ^ 64)) x % 2)
    (Utils.hash_partition k2 x % (d1 - w + 1)) (List.replicate d1 0) w hbound
  have hsv : Utils.sparse_vector k2 x d1 w
      = (List.range w).foldl
          (fun v i => v.set (Utils.hash_partition k2 x % (d1 - w + 1) + i)
            (Utils.hash_partition (Nat.xor k2 ((x + i) % 2 ^ 64)) x % 2))
          (List.replicate d1 0) := rfl
  refine ⟨?_, ?_, ?_, ?_⟩
  · rw [hsv, hlen, List.length_replicate]
  · intro j hj hout
    rw [hsv, hget j, if_neg (by omega)]
    exact Aux.getD_replicate _ _ _ _ hj
  · intro i hi
    rw [hsv, hget _, if_pos (by omega)]
    have harg : Utils.hash_partition k2 x % (d1 - w + 1) + i
        - Utils.hash_partition k2 x % (d1 - w + 1) = i := by omega
    rw [harg]
  · intro j hj
    rw [hsv, hget j]
    by_cases hband : Utils.hash_partition k2 x % (d1 - w + 1) ≤ j ∧
        j < Utils.hash_partition k2 x % (d1 - w + 1) + w
    · rw [if_pos hband]
      have : Utils.hash_partition (Nat.xor k2
          ((x + (j - Utils.hash_partition k2 x % (d1 - w + 1))) % 2 ^ 64)) x % 2 < 2 :=
        Nat.mod_lt _ (by omega)
      omega
    · rw [if_neg hband]
      left
      exact Aux.getD_replicate _ _ _ _ hj

/-- Witness for C5 at k2 = 12345, x = 678, d1 = 8, w = 3. -/
theorem claim5_witness :
    1 ≤ 3 ∧ 3 ≤ 8 ∧ (Utils.sparse_vector 12345 678 8 3).length = 8 :=
  ⟨by decide, by decide, (claim5_theorem 12345 678 8 3 (by decide) (by decide)).1⟩

/-- C6: the solver never reports inconsistency.  For every nonempty system,
including ones whose eliminated rows are all-zero with nonzero right-hand
side, it returns a length-d1 vector normally; the embedding is a total
function with no error outcome, mirroring the C++ which has no failure path. -/
theorem claim6_theorem (M : List (List ℕ)) (y : List ℕ) (q : ℕ) (hm : M ≠ []) :
    (Matrix.gaussian_elimination M y q).length = (M.headD []).length :=
  Matrix.ge_length M y q hm

/-- Witness for C6 on the inconsistent system x = 0, x = 1 over Z_2: the
solver still returns a length-1 vector. -/
theorem claim6_witness : (Matrix.gaussian_elimination [[1], [1]] [0, 1] 2).length = 1 :=
  claim6_theorem [[1], [1]] [0, 1] 2 (by decide)

/-- C7: `mod_inverse 0 q` returns the sentinel 0 for every modulus q, rather
than failing. -/
theorem claim7_theorem : ∀ q : ℕ, Utils.mod_inverse 0 q = 0 := fun _ => rfl

/-- C8: aggregation is order independent: folding any permutation of a list
of same-shape matrices with `matrix_add` (componentwise `add_mod`) from the
zero matrix yields the same aggregate. -/
theorem claim8_theorem (q r c : ℕ) (hq : 1 ≤ q) (l₁ l₂ : List (List (List ℕ)))
    (hperm : l₁.Perm l₂)
    (hshape : ∀ X ∈ l₁, X.length = r ∧ ∀ row ∈ X, row.length = c)
    (hentries : ∀ X ∈ l₁, ∀ row ∈ X, ∀ v ∈ row, v < q) :
    l₁.foldl (fun acc X => Matrix.matrix_add acc X q) (Matrix.zero_matrix r c)
      = l₂.foldl (fun acc X => Matrix.matrix_add acc X q) (Matrix.zero_matrix r c) := by
  rw [Matrix.zero_matrix_eq r c q, Matrix.foldl_matrix_add, Matrix.foldl_matrix_add]
  refine Aux.map_congr_mem _ _ _ (fun i _ => ?_)
  refine Aux.map_congr_mem _ _ _ (fun j _ => ?_)
  rw [List.Perm.sum_eq (hperm.map _)]

/-- Witness for C8 on two 1×2 matrices over Z_5, in both orders. -/
theorem claim8_witness :
    [[[1, 2]], [[3, 4]]].foldl (fun acc X => Matrix.matrix_add acc X 5)
        (Matrix.zero_matrix 1 2)
      = [[[3, 4]], [[1, 2]]].foldl (fun acc X => Matrix.matrix_add acc X 5)
        (Matrix.zero_matrix 1 2) :=
  claim8_theorem 5 1 2 (by decide) _ _ (by decide) (by decide) (by decide)

/-- C9: the two pseudorandom mixing functions are extensionally identical:
`prf_value` and `hash_partition` compute the same avalanche mix. -/
theorem claim9_theorem : ∀ key x : ℕ, Utils.prf_value key x = Utils.hash_partition key x :=
  fun _ _ => rfl

/-- C10: on an empty system (zero rows) the solver returns the empty vector
for every target vector and modulus. -/
theorem claim10_theorem : ∀ (y : List ℕ) (q : ℕ), Matrix.gaussian_elimination [] y q = [] :=
  fun _ _ => rfl

namespace Aux

/-- An in-range `getD` does not depend on the default. -/
theorem getD_irrel {α : Type} (l : List α) (i : ℕ) (d d' : α) (h : i < l.length) :
    l.getD i d = l.getD i d' := by
  induction l generalizing i with
  | nil => simp at h
  | cons a t ih =>
    cases i with
    | zero => rfl
    | succ n =>
      simp only [List.length_cons, Nat.succ_lt_succ_iff] at h
      simpa using ih n h

/-- Members of a `take` are in-range `getD` reads of the original list. -/
theorem mem_take_imp {α : Type} (l : List α) (n : ℕ) (a d : α) (h : a ∈ l.take n) :
    ∃ i, i < n ∧ i < l.length ∧ l.getD i d = a := by
  induction l generalizing n with
  | nil => simp at h
  | cons x t ih =>
    cases n with
    | zero => simp at h
    | succ m =>
      rw [List.take_succ_cons, List.mem_cons] at h
      rcases h with h | h
      · exact ⟨0, by omega, by simp, h.symm⟩
      · obtain ⟨i, hi1, hi2, hi3⟩ := ih m h
        exact ⟨i + 1, by omega, by simp [hi2], hi3⟩

end Aux

namespace Utils

/-- The 128-bit wrap in `sub_mod` is invisible for machine-word arguments
with `b ≤ q`: the value is the textbook `(a + (q - b)) % q`. -/
theorem sub_mod_eq (a b q : ℕ) (ha : a < 2 ^ 64) (hq : q < 2 ^ 64) (hb : b ≤ q) :
    sub_mod a b q = (a + (q - b)) % q := by
  have hpow : (2 : ℕ) ^ 64 < 2 ^ 128 := Nat.pow_lt_pow_right (by omega) (by omega)
  rw [sub_mod]
  have h1 : q + 2 ^ 128 - b = 2 ^ 128 + (q - b) := by omega
  rw [h1, Nat.add_mod_left]
  have h2 : q - b < 2 ^ 128 := by omega
  rw [Nat.mod_eq_of_lt h2]
  have h3 : a + (q - b) < 2 ^ 128 := by omega
  rw [Nat.mod_eq_of_lt h3]

/-- `sub_mod` lands below the modulus. -/
theorem sub_mod_lt (a b q : ℕ) (hq : 0 < q) : sub_mod a b q < q :=
  Nat.mod_lt _ hq

/-- `mul_mod` lands below the modulus. -/
theorem mul_mod_lt (a b q : ℕ) (hq : 0 < q) : mul_mod a b q < q :=
  Nat.mod_lt _ hq

/-- Cast of `mul_mod` into `ZMod q`. -/
theorem cast_mul_mod (a b q : ℕ) :
    ((mul_mod a b q : ℕ) : ZMod q) = (a : ZMod q) * (b : ZMod q) := by
  rw [mul_mod, Aux.cast_mod]
  push_cast
  ring

/-- Cast of `sub_mod` into `ZMod q` for machine-word arguments. -/
theorem cast_sub_mod (a b q : ℕ) (ha : a < 2 ^ 64) (hq : q < 2 ^ 64) (hb : b ≤ q) :
    ((sub_mod a b q : ℕ) : ZMod q) = (a : ZMod q) - (b : ZMod q) := by
  rw [sub_mod_eq a b q ha hq hb, Aux.cast_mod, Nat.cast_add, Nat.cast_sub hb]
  simp only [ZMod.natCast_self, zero_sub]
  ring

/-- The inverse produced by `mod_inverse` is a unit in `ZMod q`, and
multiplies with its argument to 1 there. -/
theorem cast_mod_inverse_mul (a q : ℕ) (hq : Nat.Prime q) (h0 : a ≠ 0) (hlt : a < q) :
    ((mod_inverse a q : ℕ) : ZMod q) * (a : ZMod q) = 1 := by
  have h := mod_inverse_mul a q hq h0 hlt
  have hcast : (((mod_inverse a q * a) % q : ℕ) : ZMod q) = ((1 : ℕ) : ZMod q) := by
    rw [h]
  rw [Aux.cast_mod] at hcast
  push_cast at hcast
  exact hcast

end Utils

namespace Matrix

/-- Length of a normalized row. -/
theorem length_scale_from (col pinv q : ℕ) (r : List ℕ) (h : col ≤ r.length) :
    (scale_from col pinv q r).length = r.length := by
  rw [scale_from, List.length_append, List.length_take, List.length_map,
    List.length_drop]
  omega

/-- Normalization leaves the entries left of the pivot column unchanged. -/
theorem getD_scale_from_lt (col pinv q : ℕ) (r : List ℕ) (j : ℕ)
    (hcol : col ≤ r.length) (hj : j < col) :
    (scale_from col pinv q r).getD j 0 = r.getD j 0 := by
  rw [scale_from, Aux.getD_append_left _ _ _ _ (by
    rw [List.length_take]
    omega), Aux.getD_take _ _ _ _ hj]

/-- Normalization multiplies the entries from the pivot column rightward. -/
theorem getD_scale_from_ge (col pinv q : ℕ) (r : List ℕ) (j : ℕ)
    (hj : col ≤ j) (hjlen : j < r.length) :
    (scale_from col pinv q r).getD j 0 = Utils.mul_mod (r.getD j 0) pinv q := by
  have htl : (r.take col).length = col := by
    rw [List.length_take]
    omega
  rw [scale_from, Aux.getD_append_right _ _ _ _ (by omega), htl]
  have hdl : j - col < ((r.drop col).map (fun v => Utils.mul_mod v pinv q)).length := by
    rw [List.length_map, List.length_drop]
    omega
  rw [Aux.getD_irrel _ _ _ (Utils.mul_mod 0 pinv q) hdl, Aux.getD_map,
    Aux.getD_drop]
  congr 1
  · congr 1
    omega

/-- A row with zero factor is left untouched by elimination. -/
theorem elim_row_of_zero (col q : ℕ) (prow r : List ℕ) (h : r.getD col 0 = 0) :
    elim_row col q prow r = r := by
  simp only [elim_row]
  rw [if_pos h]

/-- Elimination with a nonzero factor, written as take-and-zip. -/
theorem elim_row_of_ne (col q : ℕ) (prow r : List ℕ) (h : r.getD col 0 ≠ 0) :
    elim_row col q prow r = r.take col ++
      List.zipWith (fun a b => Utils.sub_mod a (Utils.mul_mod (r.getD col 0) b q) q)
        (r.drop col) (prow.drop col) := by
  simp only [elim_row]
  rw [if_neg h]

/-- Length of an eliminated row. -/
theorem length_elim_row (col q : ℕ) (prow r : List ℕ)
    (hlen : prow.length = r.length) (hcol : col ≤ r.length) :
    (elim_row col q prow r).length = r.length := by
  by_cases h : r.getD col 0 = 0
  · rw [elim_row_of_zero col q prow r h]
  · rw [elim_row_of_ne col q prow r h, List.length_append, List.length_take,
      List.length_zipWith, List.length_drop, List.length_drop, hlen]
    omega

/-- Elimination leaves the entries left of the pivot column unchanged. -/
theorem getD_elim_row_lt (col q : ℕ) (prow r : List ℕ) (j : ℕ)
    (hcol : col ≤ r.length) (hj : j < col) :
    (elim_row col q prow r).getD j 0 = r.getD j 0 := by
  by_cases h : r.getD col 0 = 0
  · rw [elim_row_of_zero col q prow r h]
  · rw [elim_row_of_ne col q prow r h,
      Aux.getD_append_left _ _ _ _ (by
        rw [List.length_take]
        omega), Aux.getD_take _ _ _ _ hj]

/-- Elimination with a nonzero factor subtracts the scaled pivot row from the
pivot column rightward. -/
theorem getD_elim_row_ge (col q : ℕ) (prow r : List ℕ) (j : ℕ)
    (hlen : prow.length = r.length) (hj : col ≤ j) (hjlen : j < r.length)
    (hf : r.getD col 0 ≠ 0) :
    (elim_row col q prow r).getD j 0
      = Utils.sub_mod (r.getD j 0)
          (Utils.mul_mod (r.getD col 0) (prow.getD j 0) q) q := by
  rw [elim_row_of_ne col q prow r hf]
  have htl : (r.take col).length = col := by
    rw [List.length_take]
    omega
  rw [Aux.getD_append_right _ _ _ _ (by omega), htl,
    Aux.getD_zipWith _ _ _ _ _ 0 0 (by
      rw [List.length_drop]
      omega) (by
      rw [List.length_drop, hlen]
      omega),
    Aux.getD_drop, Aux.getD_drop]
  have harg : col + (j - col) = j := by omega
  rw [harg]

/-- A successful pivot search returns an in-range row with a nonzero entry. -/
theorem find_pivot_some (aug : List (List ℕ)) (col : ℕ) :
    ∀ rem row best, find_pivot aug col row rem = some best →
      row ≤ best ∧ best < row + rem ∧ (aug.getD best []).getD col 0 ≠ 0 := by
  intro rem
  induction rem with
  | zero => intro row best h; simp [find_pivot] at h
  | succ n ih =>
    intro row best h
    rw [find_pivot] at h
    by_cases hnz : (aug.getD row []).getD col 0 ≠ 0
    · rw [if_pos hnz] at h
      obtain rfl : row = best := by simpa using h
      exact ⟨le_rfl, by omega, hnz⟩
    · rw [if_neg hnz] at h
      obtain ⟨h1, h2, h3⟩ := ih (row + 1) best h
      exact ⟨by omega, by omega, h3⟩

/-- A failed pivot search means the whole scanned column segment is zero. -/
theorem find_pivot_none (aug : List (List ℕ)) (col : ℕ) :
    ∀ rem row, find_pivot aug col row rem = none →
      ∀ i, row ≤ i → i < row + rem → (aug.getD i []).getD col 0 = 0 := by
  intro rem
  induction rem with
  | zero => intro row _ i h1 h2; omega
  | succ n ih =>
    intro row h i h1 h2
    rw [find_pivot] at h
    by_cases hnz : (aug.getD row []).getD col 0 ≠ 0
    · rw [if_pos hnz] at h
      exact absurd h (by simp)
    · rw [if_neg hnz] at h
      by_cases hir : i = row
      · subst hir
        exact not_ne_iff.mp hnz
      · exact ih (row + 1) h i (by omega) (by omega)

/-- The leading-column scan returns the first nonzero position. -/
theorem find_nonzero_spec (row : List ℕ) :
    ∀ rem j c, (∀ t, j ≤ t → t < c → row.getD t 0 = 0) →
      j ≤ c → c < j + rem → row.getD c 0 ≠ 0 →
      find_nonzero row j rem = some c := by
  intro rem
  induction rem with
  | zero => intro j c _ h1 h2 _; omega
  | succ n ih =>
    intro j c hzero h1 h2 hnz
    rw [find_nonzero]
    by_cases hjc : j = c
    · subst hjc
      rw [if_pos hnz]
    · have hj0 : row.getD j 0 = 0 := hzero j le_rfl (by omega)
      rw [if_neg (not_not.mpr hj0)]
      exact ih (j + 1) c (fun t ht1 ht2 => hzero t (by omega) ht2) (by omega)
        (by omega) hnz

end Matrix

namespace Matrix

/-- `RowSat` (a `Nat.ModEq` statement) expressed as an equation in `ZMod q`. -/
theorem rowSat_iff (q d1 : ℕ) (hq : 0 < q) (r e : List ℕ) :
    RowSat q d1 r e ↔
      (∑ j in Finset.range d1, (r.getD j 0 : ZMod q) * (e.getD j 0 : ZMod q))
        = ((r.getD d1 0 : ℕ) : ZMod q) := by
  have hcast : ((dotc d1 r e : ℕ) : ZMod q)
      = ∑ j in Finset.range d1, (r.getD j 0 : ZMod q) * (e.getD j 0 : ZMod q) := by
    rw [dotc]
    push_cast
    rfl
  rw [RowSat, ← Aux.natCast_eq_iff_modeq _ _ q hq, hcast]

/-- The residual loop stays below the modulus and computes, in `ZMod q`, the
start value minus the accumulated products. -/
theorem residual_spec (q : ℕ) (hq : 0 < q) (hq64 : q < 2 ^ 64) (row res : List ℕ) :
    ∀ rem j s, s < q →
      residual q row res j rem s < q ∧
        ((residual q row res j rem s : ℕ) : ZMod q)
          = (s : ZMod q) - ∑ t in Finset.range rem,
              (row.getD (j + t) 0 : ZMod q) * (res.getD (j + t) 0 : ZMod q) := by
  intro rem
  induction rem with
  | zero =>
    intro j s hs
    rw [residual]
    exact ⟨hs, by simp⟩
  | succ n ih =>
    intro j s hs
    rw [residual]
    have hterm : Utils.mul_mod (row.getD j 0) (res.getD j 0) q < q :=
      Utils.mul_mod_lt _ _ _ hq
    have hs' : Utils.sub_mod s (Utils.mul_mod (row.getD j 0) (res.getD j 0) q) q < q :=
      Utils.sub_mod_lt _ _ _ hq
    obtain ⟨ihlt, iheq⟩ := ih (j + 1) _ hs'
    refine ⟨ihlt, ?_⟩
    rw [iheq, Utils.cast_sub_mod _ _ _ (by omega) hq64 (by omega),
      Utils.cast_mul_mod]
    have hsum : (∑ t in Finset.range (n + 1),
          (row.getD (j + t) 0 : ZMod q) * (res.getD (j + t) 0 : ZMod q))
        = (row.getD j 0 : ZMod q) * (res.getD j 0 : ZMod q)
          + ∑ t in Finset.range n,
              (row.getD (j + 1 + t) 0 : ZMod q) * (res.getD (j + 1 + t) 0 : ZMod q) := by
      rw [Finset.sum_range_succ']
      have hre : ∀ t ∈ Finset.range n,
          (row.getD (j + (t + 1)) 0 : ZMod q) * (res.getD (j + (t + 1)) 0 : ZMod q)
            = (row.getD (j + 1 + t) 0 : ZMod q) * (res.getD (j + 1 + t) 0 : ZMod q) := by
        intro t _
        have : j + (t + 1) = j + 1 + t := by omega
        rw [this]
      rw [Finset.sum_congr rfl hre, add_comm]
      simp
    rw [hsum]
    ring

/-- Normalizing a row whose entries left of `col` vanish multiplies its
equation by a unit, so satisfaction is unchanged. -/
theorem rowSat_scale_iff (q d1 col pinv : ℕ) (hq : 0 < q) (r e : List ℕ)
    (hlen : r.length = d1 + 1) (hcol : col ≤ d1)
    (hz : ∀ j, j < col → r.getD j 0 = 0)
    (hunit : IsUnit ((pinv : ℕ) : ZMod q)) :
    (RowSat q d1 (scale_from col pinv q r) e ↔ RowSat q d1 r e) := by
  rw [rowSat_iff q d1 hq, rowSat_iff q d1 hq]
  have hterm : ∀ j ∈ Finset.range d1,
      ((scale_from col pinv q r).getD j 0 : ZMod q) * (e.getD j 0 : ZMod q)
        = (pinv : ZMod q) * ((r.getD j 0 : ZMod q) * (e.getD j 0 : ZMod q)) := by
    intro j hj
    have hjd : j < d1 := Finset.mem_range.mp hj
    by_cases hjc : j < col
    · rw [getD_scale_from_lt col pinv q r j (by omega) hjc, hz j hjc]
      simp
    · rw [getD_scale_from_ge col pinv q r j (by omega) (by omega),
        Utils.cast_mul_mod]
      ring
  rw [Finset.sum_congr rfl hterm, ← Finset.mul_sum,
    getD_scale_from_ge col pinv q r d1 hcol (by omega), Utils.cast_mul_mod]
  rw [mul_comm ((r.getD d1 0 : ℕ) : ZMod q) ((pinv : ℕ) : ZMod q)]
  exact hunit.mul_right_inj

/-- Eliminating with a pivot row that `e` satisfies does not change whether
`e` satisfies the row, provided both rows vanish left of `col`. -/
theorem rowSat_elim_iff (q d1 col : ℕ) (hq : 0 < q) (hq64 : q < 2 ^ 64)
    (prow r e : List ℕ)
    (hplen : prow.length = d1 + 1) (hrlen : r.length = d1 + 1) (hcol : col ≤ d1)
    (hpz : ∀ j, j < col → prow.getD j 0 = 0)
    (hrz : ∀ j, j < col → r.getD j 0 = 0)
    (hrq : ∀ j, j ≤ d1 → r.getD j 0 < q)
    (hsat : RowSat q d1 prow e) :
    (RowSat q d1 (elim_row col q prow r) e ↔ RowSat q d1 r e) := by
  by_cases hf : r.getD col 0 = 0
  · rw [elim_row_of_zero col q prow r hf]
  · rw [rowSat_iff q d1 hq, rowSat_iff q d1 hq]
    rw [rowSat_iff q d1 hq] at hsat
    have hterm : ∀ j ∈ Finset.range d1,
        ((elim_row col q prow r).getD j 0 : ZMod q) * (e.getD j 0 : ZMod q)
          = (r.getD j 0 : ZMod q) * (e.getD j 0 : ZMod q)
            - (r.getD col 0 : ZMod q)
              * ((prow.getD j 0 : ZMod q) * (e.getD j 0 : ZMod q)) := by
      intro j hj
      have hjd : j < d1 := Finset.mem_range.mp hj
      by_cases hjc : j < col
      · rw [getD_elim_row_lt col q prow r j (by omega) hjc, hrz j hjc, hpz j hjc]
        simp
      · rw [getD_elim_row_ge col q prow r j (by omega) (by omega) (by omega) hf,
          Utils.cast_sub_mod _ _ _ (by
            have := hrq j (by omega)
            omega) hq64 (le_of_lt (Utils.mul_mod_lt _ _ _ hq)),
          Utils.cast_mul_mod]
        ring
    rw [Finset.sum_congr rfl hterm, Finset.sum_sub_distrib, ← Finset.mul_sum, hsat]
    rw [getD_elim_row_ge col q prow r d1 (by omega) hcol (by omega) hf,
      Utils.cast_sub_mod _ _ _ (by
        have := hrq d1 le_rfl
        omega) hq64 (le_of_lt (Utils.mul_mod_lt _ _ _ hq)),
      Utils.cast_mul_mod]
    exact sub_left_inj

end Matrix

namespace Matrix

/-- Length of a tagged swap. -/
theorem length_tswap (l : List (ℕ × List ℕ)) (i j : ℕ) :
    (tswap_rows l i j).length = l.length := by
  simp [tswap_rows]

/-- Read chart of the tagged row swap. -/
theorem getD_tswap (l : List (ℕ × List ℕ)) (p best k : ℕ)
    (hp : p < l.length) (hb : best < l.length) :
    (tswap_rows l p best).getD k (0, [])
      = if k = best then l.getD p (0, [])
        else if k = p then l.getD best (0, []) else l.getD k (0, []) := by
  rw [tswap_rows]
  by_cases hkb : k = best
  · subst hkb
    rw [if_pos rfl, Aux.getD_set_self _ _ _ _ (by
      rw [List.length_set]
      exact hb)]
  · rw [if_neg hkb, Aux.getD_set_ne _ _ _ _ _ (fun h => hkb h.symm)]
    by_cases hkp : k = p
    · subst hkp
      rw [if_pos rfl, Aux.getD_set_self _ _ _ _ hp]
    · rw [if_neg hkp, Aux.getD_set_ne _ _ _ _ _ (fun h => hkp h.symm)]

/-- The swapped-in pivot row is row `best` of the original matrix. -/
theorem getD_tswap_pivot (l : List (ℕ × List ℕ)) (p best : ℕ)
    (hp : p < l.length) (hb : best < l.length) :
    (tswap_rows l p best).getD p (0, []) = l.getD best (0, []) := by
  rw [getD_tswap _ _ _ _ hp hb]
  by_cases hpb : p = best
  · subst hpb
    rw [if_pos rfl]
  · rw [if_neg hpb, if_pos rfl]

/-- Length of a pivot step's result. -/
theorem pivot_apply_length (q col p best : ℕ) (aug : List (ℕ × List ℕ)) :
    (pivot_apply q col p best aug).length = aug.length := by
  rw [pivot_apply]
  simp [tswap_rows]

/-- A pivot step leaves the rows above the pivot position untouched. -/
theorem pivot_apply_getD_lt (q col p best : ℕ) (aug : List (ℕ × List ℕ)) (k : ℕ)
    (hp : p < aug.length) (hb : best < aug.length) (hpb : p ≤ best) (hk : k < p) :
    (pivot_apply q col p best aug).getD k (0, []) = aug.getD k (0, []) := by
  rw [pivot_apply]
  simp only
  rw [Aux.getD_range_map _ _ _ _ (by
      rw [List.length_set, length_tswap]
      omega), if_pos (by omega : k ≤ p),
    Aux.getD_set_ne _ _ _ _ _ (by omega : p ≠ k), getD_tswap _ _ _ _ hp hb,
    if_neg (by omega : ¬ k = best), if_neg (by omega : ¬ k = p)]

/-- A pivot step puts the normalized copy of row `best` (tag included) at the
pivot position. -/
theorem pivot_apply_getD_eq (q col p best : ℕ) (aug : List (ℕ × List ℕ))
    (hp : p < aug.length) (hb : best < aug.length) :
    (pivot_apply q col p best aug).getD p (0, [])
      = ((aug.getD best (0, [])).1, prow_of q col best aug) := by
  rw [pivot_apply]
  simp only
  rw [Aux.getD_range_map _ _ _ _ (by
      rw [List.length_set, length_tswap]
      omega), if_pos (le_rfl : p ≤ p),
    Aux.getD_set_self _ _ _ _ (by
      rw [length_tswap]
      exact hp),
    getD_tswap_pivot _ _ _ hp hb, prow_of]

/-- A pivot step eliminates every row strictly below the pivot position,
acting on the swapped row contents. -/
theorem pivot_apply_getD_gt (q col p best : ℕ) (aug : List (ℕ × List ℕ)) (k : ℕ)
    (hp : p < aug.length) (hb : best < aug.length) (hk : p < k) (hklen : k < aug.length) :
    (pivot_apply q col p best aug).getD k (0, [])
      = ((if k = best then aug.getD p (0, []) else aug.getD k (0, [])).1,
          elim_row col q (prow_of q col best aug)
            (if k = best then aug.getD p (0, []) else aug.getD k (0, [])).2) := by
  rw [pivot_apply]
  simp only
  rw [Aux.getD_range_map _ _ _ _ (by
      rw [List.length_set, length_tswap]
      omega), if_neg (by omega : ¬ k ≤ p),
    Aux.getD_set_ne _ _ _ _ _ (by omega : p ≠ k), getD_tswap_pivot _ _ _ hp hb,
    getD_tswap _ _ _ _ hp hb, if_neg (by omega : ¬ k = p)]
  rw [prow_of]

end Matrix

namespace Matrix

/-- One forward-elimination step preserves the loop invariant, moving the
frontier from `col` to `col + 1` (and recording the new pivot column when a
pivot is found). -/
theorem tfe_step_inv (q d1 : ℕ) (M : List (List ℕ)) (y : List ℕ)
    (hq : Nat.Prime q) (hq64 : q < 2 ^ 64)
    (aug : List (ℕ × List ℕ)) (p col : ℕ) (cs : List ℕ)
    (hinv : StInv q d1 M y aug p col cs) (hcol : col < d1) (hpm : p < aug.length) :
    ∃ cs', StInv q d1 M y (tfe_step q col aug p).1 (tfe_step q col aug p).2
      (col + 1) cs' := by
  have hq0 : 0 < q := hq.pos
  obtain ⟨hlen, hple, hrowlen, hbound, hzero, hcs_len, hcs_lt, hcs_mono,
    hpzero, hpone, hsem⟩ := hinv
  have hmap : ∀ i, (aug.map Prod.snd).getD i [] = (aug.getD i (0, [])).2 :=
    fun i => Aux.getD_map Prod.snd aug i (0, [])
  cases hfp : find_pivot (aug.map Prod.snd) col p (aug.length - p) with
  | none =>
    have hstep : tfe_step q col aug p = (aug, p) := by
      simp only [tfe_step, hfp]
    rw [hstep]
    dsimp only
    refine ⟨cs, hlen, hple, hrowlen, hbound, ?_, hcs_len, ?_, hcs_mono,
      hpzero, hpone, hsem⟩
    · intro i hpi hil j hj
      by_cases hjc : j < col
      · exact hzero i hpi hil j hjc
      · have hjcol : j = col := by omega
        rw [hjcol]
        have hz := find_pivot_none (aug.map Prod.snd) col _ p hfp i hpi (by omega)
        rwa [hmap] at hz
    · intro k hk
      exact lt_trans (hcs_lt k hk) (by omega)
  | some best =>
    obtain ⟨hb1, hb2, hb3⟩ := find_pivot_some (aug.map Prod.snd) col _ p best hfp
    rw [hmap] at hb3
    have hblen : best < aug.length := by omega
    have hstep : tfe_step q col aug p = (pivot_apply q col p best aug, p + 1) := by
      simp only [tfe_step, hfp]
    rw [hstep]
    dsimp only
    have hlen' : (pivot_apply q col p best aug).length = aug.length :=
      pivot_apply_length q col p best aug
    have hpivlt : (aug.getD best (0, [])).2.getD col 0 < q :=
      hbound best hblen col (by omega)
    have hbestlen : (aug.getD best (0, [])).2.length = d1 + 1 := hrowlen best hblen
    have hunit_mul : ((Utils.mod_inverse ((aug.getD best (0, [])).2.getD col 0) q : ℕ)
          : ZMod q) * (((aug.getD best (0, [])).2.getD col 0 : ℕ) : ZMod q) = 1 :=
      Utils.cast_mod_inverse_mul _ q hq hb3 hpivlt
    have hunit : IsUnit ((Utils.mod_inverse ((aug.getD best (0, [])).2.getD col 0) q : ℕ)
        : ZMod q) := isUnit_of_mul_eq_one _ _ hunit_mul
    have hprow_len : (prow_of q col best aug).length = d1 + 1 := by
      rw [prow_of, length_scale_from _ _ _ _ (by omega), hbestlen]
    have hprow_zero : ∀ j, j < col → (prow_of q col best aug).getD j 0 = 0 := by
      intro j hj
      rw [prow_of, getD_scale_from_lt _ _ _ _ _ (by omega) hj]
      exact hzero best hb1 hblen j hj
    have hprow_one : (prow_of q col best aug).getD col 0 = 1 := by
      rw [prow_of, getD_scale_from_ge _ _ _ _ _ le_rfl (by omega)]
      rw [Utils.mul_mod, Nat.mul_comm, ← Utils.mul_mod]
      exact Utils.mod_inverse_mul _ q hq hb3 hpivlt
    have hprow_bound : ∀ j, j ≤ d1 → (prow_of q col best aug).getD j 0 < q := by
      intro j hj
      by_cases hjc : j < col
      · rw [prow_of, getD_scale_from_lt _ _ _ _ _ (by omega) hjc]
        exact hbound best hblen j hj
      · rw [prow_of, getD_scale_from_ge _ _ _ _ _ (by omega) (by omega)]
        exact Utils.mul_mod_lt _ _ _ hq0
    have hprow_sat_iff : ∀ e, RowSat q d1 (prow_of q col best aug) e
        ↔ RowSat q d1 (aug.getD best (0, [])).2 e := by
      intro e
      rw [prow_of]
      exact rowSat_scale_iff q d1 col _ hq0 _ e hbestlen (by omega)
        (fun j hj => hzero best hb1 hblen j hj) hunit
    have hRlen : ∀ k, p ≤ k → k < aug.length →
        (if k = best then aug.getD p (0, []) else aug.getD k (0, [])).2.length
          = d1 + 1 := by
      intro k hk hkl
      by_cases hkb : k = best
      · rw [if_pos hkb]
        exact hrowlen p hpm
      · rw [if_neg hkb]
        exact hrowlen k hkl
    have hRzero : ∀ k, p ≤ k → k < aug.length → ∀ j, j < col →
        (if k = best then aug.getD p (0, []) else aug.getD k (0, [])).2.getD j 0
          = 0 := by
      intro k hk hkl j hj
      by_cases hkb : k = best
      · rw [if_pos hkb]
        exact hzero p le_rfl hpm j hj
      · rw [if_neg hkb]
        exact hzero k hk hkl j hj
    have hRbound : ∀ k, p ≤ k → k < aug.length → ∀ j, j ≤ d1 →
        (if k = best then aug.getD p (0, []) else aug.getD k (0, [])).2.getD j 0
          < q := by
      intro k hk hkl j hj
      by_cases hkb : k = best
      · rw [if_pos hkb]
        exact hbound p hpm j hj
      · rw [if_neg hkb]
        exact hbound k hkl j hj
    have hcsget : ∀ k, k ≤ p →
        (cs ++ [col]).getD k 0 = if k < p then cs.getD k 0 else col := by
      intro k hk
      by_cases hkp : k < p
      · rw [if_pos hkp, Aux.getD_append_left _ _ _ _ (by omega)]
      · have : k = p := by omega
        subst this
        rw [if_neg hkp, Aux.getD_append_right _ _ _ _ (by omega), hcs_len]
        simp
    refine ⟨cs ++ [col], by rw [hlen', hlen], by omega, ?_, ?_, ?_, ?_, ?_, ?_,
      ?_, ?_, ?_⟩
    · intro i hi
      rw [hlen'] at hi
      rcases Nat.lt_trichotomy i p with hip | hip | hip
      · rw [pivot_apply_getD_lt q col p best aug i hpm hblen hb1 hip]
        exact hrowlen i hi
      · rw [hip, pivot_apply_getD_eq q col p best aug hpm hblen]
        exact hprow_len
      · rw [pivot_apply_getD_gt q col p best aug i hpm hblen hip hi]
        simp only
        rw [length_elim_row col q _ _ (by
            rw [hprow_len, hRlen i (by omega) hi]) (by
            rw [hRlen i (by omega) hi]
            omega), hRlen i (by omega) hi]
    · intro i hi j hj
      rw [hlen'] at hi
      rcases Nat.lt_trichotomy i p with hip | hip | hip
      · rw [pivot_apply_getD_lt q col p best aug i hpm hblen hb1 hip]
        exact hbound i hi j hj
      · rw [hip, pivot_apply_getD_eq q col p best aug hpm hblen]
        exact hprow_bound j hj
      · rw [pivot_apply_getD_gt q col p best aug i hpm hblen hip hi]
        simp only
        by_cases hjc : j < col
        · rw [getD_elim_row_lt col q _ _ j (by
              rw [hRlen i (by omega) hi]
              omega) hjc]
          exact hRbound i (by omega) hi j hj
        · by_cases hf : (if i = best then aug.getD p (0, [])
              else aug.getD i (0, [])).2.getD col 0 = 0
          · rw [elim_row_of_zero col q _ _ hf]
            exact hRbound i (by omega) hi j hj
          · rw [getD_elim_row_ge col q _ _ j (by
                rw [hprow_len, hRlen i (by omega) hi]) (by omega) (by
                rw [hRlen i (by omega) hi]
                omega) hf]
            exact Utils.sub_mod_lt _ _ _ hq0
    · intro i hpi hil j hj
      rw [hlen'] at hil
      have hip : p < i := by omega
      rw [pivot_apply_getD_gt q col p best aug i hpm hblen hip hil]
      simp only
      by_cases hjc : j < col
      · rw [getD_elim_row_lt col q _ _ j (by
            rw [hRlen i (by omega) hil]
            omega) hjc]
        exact hRzero i (by omega) hil j hjc
      · have hjcol : j = col := by omega
        rw [hjcol]
        by_cases hf : (if i = best then aug.getD p (0, [])
            else aug.getD i (0, [])).2.getD col 0 = 0
        · rw [elim_row_of_zero col q _ _ hf]
          exact hf
        · rw [getD_elim_row_ge col q _ _ col (by
              rw [hprow_len, hRlen i (by omega) hil]) le_rfl (by
              rw [hRlen i (by omega) hil]
              omega) hf]
          rw [hprow_one]
          have hflt : (if i = best then aug.getD p (0, [])
              else aug.getD i (0, [])).2.getD col 0 < q :=
            hRbound i (by omega) hil col (by omega)
          rw [Utils.mul_mod, Nat.mul_one, Nat.mod_eq_of_lt hflt,
            Utils.sub_mod_eq _ _ _ (by omega) hq64 (by omega)]
          have hsum : (if i = best then aug.getD p (0, [])
              else aug.getD i (0, [])).2.getD col 0
              + (q - (if i = best then aug.getD p (0, [])
                  else aug.getD i (0, [])).2.getD col 0) = q := by omega
          rw [hsum, Nat.mod_self]
    · simp [hcs_len]
    · intro k hk
      rw [hcsget k (by omega)]
      by_cases hkp : k < p
      · rw [if_pos hkp]
        exact lt_trans (hcs_lt k hkp) (by omega)
      · rw [if_neg hkp]
        omega
    · intro k k2 hkk hk2
      rw [hcsget k (by omega), hcsget k2 (by omega)]
      by_cases hk2p : k2 < p
      · rw [if_pos (by omega : k < p), if_pos hk2p]
        exact hcs_mono k k2 hkk hk2p
      · rw [if_pos (by omega : k < p), if_neg hk2p]
        exact hcs_lt k (by omega)
    · intro k hk j hj
      rw [hcsget k (by omega)] at hj
      by_cases hkp : k < p
      · rw [if_pos hkp] at hj
        rw [pivot_apply_getD_lt q col p best aug k hpm hblen hb1 hkp]
        exact hpzero k hkp j hj
      · have hkp2 : k = p := by omega
        rw [if_neg hkp] at hj
        rw [hkp2, pivot_apply_getD_eq q col p best aug hpm hblen]
        exact hprow_zero j hj
    · intro k hk
      rw [hcsget k (by omega)]
      by_cases hkp : k < p
      · rw [if_pos hkp, pivot_apply_getD_lt q col p best aug k hpm hblen hb1 hkp]
        exact hpone k hkp
      · have hkp2 : k = p := by omega
        rw [if_neg hkp, hkp2, pivot_apply_getD_eq q col p best aug hpm hblen]
        exact hprow_one
    · intro e He i hi
      rw [hlen'] at hi
      have hH : ∀ i, i < p → RowSat q d1 ((aug.getD i (0, [])).2) e := by
        intro i2 hi2
        have h2 := He i2 (by omega)
        rwa [pivot_apply_getD_lt q col p best aug i2 hpm hblen hb1 hi2] at h2
      have hsat_prow : RowSat q d1 (prow_of q col best aug) e := by
        have h2 := He p (by omega)
        rwa [pivot_apply_getD_eq q col p best aug hpm hblen] at h2
      rcases Nat.lt_trichotomy i p with hip | hip | hip
      · rw [pivot_apply_getD_lt q col p best aug i hpm hblen hb1 hip]
        exact hsem e hH i hi
      · rw [hip, pivot_apply_getD_eq q col p best aug hpm hblen]
        exact (hprow_sat_iff e).trans (hsem e hH best hblen)
      · rw [pivot_apply_getD_gt q col p best aug i hpm hblen hip hi]
        simp only
        have helim : RowSat q d1 (elim_row col q (prow_of q col best aug)
              (if i = best then aug.getD p (0, []) else aug.getD i (0, [])).2) e
            ↔ RowSat q d1
              (if i = best then aug.getD p (0, []) else aug.getD i (0, [])).2 e :=
          rowSat_elim_iff q d1 col hq0 hq64 _ _ e hprow_len
            (hRlen i (by omega) hi) (by omega) hprow_zero
            (hRzero i (by omega) hi) (hRbound i (by omega) hi) hsat_prow
        refine helim.trans ?_
        by_cases hib : i = best
        · rw [if_pos hib]
          exact hsem e hH p hpm
        · rw [if_neg hib]
          exact hsem e hH i hi

end Matrix

namespace Matrix

/-- The whole forward-elimination loop preserves the invariant, ending at
some frontier column `colf ≤ d1`. -/
theorem tfe_loop_inv (q d1 : ℕ) (M : List (List ℕ)) (y : List ℕ)
    (hq : Nat.Prime q) (hq64 : q < 2 ^ 64) :
    ∀ rem col aug p cs, StInv q d1 M y aug p col cs → col + rem = d1 →
      ∃ colf cs', colf ≤ d1 ∧
        StInv q d1 M y (tfe_loop q rem col aug p).1 (tfe_loop q rem col aug p).2
          colf cs' := by
  intro rem
  induction rem with
  | zero =>
    intro col aug p cs hinv hcol
    rw [tfe_loop]
    exact ⟨col, cs, by omega, hinv⟩
  | succ n ih =>
    intro col aug p cs hinv hcol
    simp only [tfe_loop]
    by_cases hpm : p < aug.length
    · rw [if_pos hpm]
      obtain ⟨cs', hinv'⟩ :=
        tfe_step_inv q d1 M y hq hq64 aug p col cs hinv (by omega) hpm
      exact ih (col + 1) _ _ cs' hinv' (by omega)
    · rw [if_neg hpm]
      exact ⟨col, cs, by omega, hinv⟩

/-- The number of pivots never exceeds the frontier column. -/
theorem stinv_p_le_col (q d1 : ℕ) (M : List (List ℕ)) (y : List ℕ)
    (aug : List (ℕ × List ℕ)) (p col : ℕ) (cs : List ℕ)
    (hinv : StInv q d1 M y aug p col cs) : p ≤ col := by
  have hmono : ∀ k, k < p → k ≤ cs.getD k 0 := by
    intro k
    induction k with
    | zero => intro _; exact Nat.zero_le _
    | succ n ihn =>
      intro h
      have h1 := ihn (by omega)
      have h2 := hinv.hcs_mono n (n + 1) (by omega) h
      omega
  rcases Nat.eq_zero_or_pos p with hp | hp
  · omega
  · have h1 := hmono (p - 1) (by omega)
    have h2 := hinv.hcs_lt (p - 1) (by omega)
    omega

/-- Projecting the tags away from a tagged swap gives the untagged swap. -/
theorem map_snd_tswap (l : List (ℕ × List ℕ)) (i j : ℕ) :
    (tswap_rows l i j).map Prod.snd = swap_rows (l.map Prod.snd) i j := by
  have hgi : (l.map Prod.snd).getD i [] = (l.getD i (0, [])).2 :=
    Aux.getD_map Prod.snd l i (0, [])
  have hgj : (l.map Prod.snd).getD j [] = (l.getD j (0, [])).2 :=
    Aux.getD_map Prod.snd l j (0, [])
  rw [tswap_rows, swap_rows, hgi, hgj, Aux.map_set, Aux.map_set]

/-- Projecting the tags away from a tagged pivot step gives the untagged
pivot step. -/
theorem map_snd_pivot_apply (q col p best : ℕ) (aug : List (ℕ × List ℕ)) :
    (pivot_apply q col p best aug).map Prod.snd
      = pivot_step q col p best (aug.map Prod.snd) := by
  simp only [pivot_apply, pivot_step]
  rw [← map_snd_tswap aug p best]
  have hgp : ((tswap_rows aug p best).map Prod.snd).getD p []
      = ((tswap_rows aug p best).getD p (0, [])).2 :=
    Aux.getD_map Prod.snd _ p (0, [])
  rw [hgp]
  have hset : ((tswap_rows aug p best).map Prod.snd).set p
        (scale_from col
          (Utils.mod_inverse (((tswap_rows aug p best).getD p (0, [])).2.getD col 0) q)
          q ((tswap_rows aug p best).getD p (0, [])).2)
      = ((tswap_rows aug p best).set p
          (((tswap_rows aug p best).getD p (0, [])).1,
            scale_from col
              (Utils.mod_inverse (((tswap_rows aug p best).getD p (0, [])).2.getD col 0) q)
              q ((tswap_rows aug p best).getD p (0, [])).2)).map Prod.snd :=
    (Aux.map_set Prod.snd (tswap_rows aug p best) p
      (((tswap_rows aug p best).getD p (0, [])).1,
        scale_from col
          (Utils.mod_inverse (((tswap_rows aug p best).getD p (0, [])).2.getD col 0) q)
          q ((tswap_rows aug p best).getD p (0, [])).2)).symm
  rw [hset, List.map_map, List.length_map]
  refine Aux.map_congr_mem _ _ _ (fun i _ => ?_)
  simp only [Function.comp]
  have hgd2 : (((tswap_rows aug p best).set p
        (((tswap_rows aug p best).getD p (0, [])).1,
          scale_from col
            (Utils.mod_inverse (((tswap_rows aug p best).getD p (0, [])).2.getD col 0) q)
            q ((tswap_rows aug p best).getD p (0, [])).2)).map Prod.snd).getD i []
      = (((tswap_rows aug p best).set p
          (((tswap_rows aug p best).getD p (0, [])).1,
            scale_from col
              (Utils.mod_inverse (((tswap_rows aug p best).getD p (0, [])).2.getD col 0) q)
              q ((tswap_rows aug p best).getD p (0, [])).2)).getD i (0, [])).2 :=
    Aux.getD_map Prod.snd _ i (0, [])
  rw [hgd2]
  by_cases hip : i ≤ p
  · rw [if_pos hip, if_pos hip]
  · rw [if_neg hip, if_neg hip]

/-- The tagged and untagged single elimination steps coincide after dropping
the tags. -/
theorem map_snd_tfe_step (q col : ℕ) (aug : List (ℕ × List ℕ)) (p : ℕ) :
    (tfe_step q col aug p).1.map Prod.snd = (fe_step q col (aug.map Prod.snd) p).1
      ∧ (tfe_step q col aug p).2 = (fe_step q col (aug.map Prod.snd) p).2 := by
  cases hfp : find_pivot (aug.map Prod.snd) col p (aug.length - p) with
  | none =>
    have h1 : tfe_step q col aug p = (aug, p) := by
      simp only [tfe_step, hfp]
    have h2 : fe_step q col (aug.map Prod.snd) p = (aug.map Prod.snd, p) := by
      simp only [fe_step, List.length_map, hfp]
    rw [h1, h2]
    exact ⟨rfl, rfl⟩
  | some best =>
    have h1 : tfe_step q col aug p = (pivot_apply q col p best aug, p + 1) := by
      simp only [tfe_step, hfp]
    have h2 : fe_step q col (aug.map Prod.snd) p
        = (pivot_step q col p best (aug.map Prod.snd), p + 1) := by
      simp only [fe_step, List.length_map, hfp]
    rw [h1, h2]
    exact ⟨map_snd_pivot_apply q col p best aug, rfl⟩

/-- The tagged and untagged forward-elimination loops coincide after dropping
the tags. -/
theorem map_snd_tfe_loop (q : ℕ) :
    ∀ rem col aug p,
      (tfe_loop q rem col aug p).1.map Prod.snd
          = (fe_loop q rem col (aug.map Prod.snd) p).1
        ∧ (tfe_loop q rem col aug p).2 = (fe_loop q rem col (aug.map Prod.snd) p).2 := by
  intro rem
  induction rem with
  | zero =>
    intro col aug p
    rw [tfe_loop, fe_loop]
    exact ⟨rfl, rfl⟩
  | succ n ih =>
    intro col aug p
    simp only [tfe_loop, fe_loop, List.length_map]
    by_cases hpm : p < aug.length
    · rw [if_pos hpm, if_pos hpm]
      obtain ⟨hs1, hs2⟩ := map_snd_tfe_step q col aug p
      rw [← hs1, ← hs2]
      exact ih (col + 1) (tfe_step q col aug p).1 (tfe_step q col aug p).2
    · rw [if_neg hpm, if_neg hpm]
      exact ⟨rfl, rfl⟩

end Matrix

namespace Matrix

/-- On a pivot row, the leading-column scan lands exactly on the (normalized)
pivot column. -/
theorem find_nonzero_pivot (q d1 : ℕ) (F : List (List ℕ)) (cs : List ℕ) (pf : ℕ)
    (hcs_lt : ∀ k, k < pf → cs.getD k 0 < d1)
    (hpz : ∀ k, k < pf → ∀ j, j < cs.getD k 0 → (F.getD k []).getD j 0 = 0)
    (hpone : ∀ k, k < pf → (F.getD k []).getD (cs.getD k 0) 0 = 1)
    (k : ℕ) (hk : k < pf) :
    find_nonzero (F.getD k []) 0 d1 = some (cs.getD k 0) :=
  find_nonzero_spec (F.getD k []) d1 0 (cs.getD k 0)
    (fun t _ ht2 => hpz k hk t ht2) (Nat.zero_le _) (by
      have := hcs_lt k hk
      omega) (by
      rw [hpone k hk]
      omega)

/-- Back substitution writes only into the pivot columns of the rows it
processes; every other position of the result vector is left unchanged. -/
theorem bs_frozen (q d1 : ℕ) (hq : Nat.Prime q) (F : List (List ℕ))
    (cs : List ℕ) (pf : ℕ)
    (hcs_lt : ∀ k, k < pf → cs.getD k 0 < d1)
    (hpz : ∀ k, k < pf → ∀ j, j < cs.getD k 0 → (F.getD k []).getD j 0 = 0)
    (hpone : ∀ k, k < pf → (F.getD k []).getD (cs.getD k 0) 0 = 1) :
    ∀ k, k ≤ pf → ∀ res j, (∀ i, i < k → cs.getD i 0 ≠ j) →
      (back_sub q d1 F k res).getD j 0 = res.getD j 0 := by
  intro k
  induction k with
  | zero => intro _ res j _; rfl
  | succ n ih =>
    intro hk res j hne
    have hfn := find_nonzero_pivot q d1 F cs pf hcs_lt hpz hpone n (by omega)
    simp only [back_sub, hfn]
    rw [ih (by omega) _ j (fun i hi => hne i (by omega))]
    by_cases hnz : (F.getD n []).getD (cs.getD n 0) 0 ≠ 0
    · rw [if_pos hnz, Aux.getD_set_ne _ _ _ _ _ (hne n (by omega))]
    · rw [if_neg hnz]

/-- Back substitution makes the result vector satisfy every processed pivot
row of the eliminated system. -/
theorem bs_sat (q d1 : ℕ) (hq : Nat.Prime q) (hq64 : q < 2 ^ 64)
    (F : List (List ℕ)) (cs : List ℕ) (pf : ℕ)
    (hcs_lt : ∀ k, k < pf → cs.getD k 0 < d1)
    (hcs_mono : ∀ k k2, k < k2 → k2 < pf → cs.getD k 0 < cs.getD k2 0)
    (hrowlen : ∀ k, k < pf → (F.getD k []).length = d1 + 1)
    (hbound : ∀ k, k < pf → ∀ j, j ≤ d1 → (F.getD k []).getD j 0 < q)
    (hpz : ∀ k, k < pf → ∀ j, j < cs.getD k 0 → (F.getD k []).getD j 0 = 0)
    (hpone : ∀ k, k < pf → (F.getD k []).getD (cs.getD k 0) 0 = 1) :
    ∀ k, k ≤ pf → ∀ res, res.length = d1 →
      ∀ i, i < k → RowSat q d1 (F.getD i []) (back_sub q d1 F k res) := by
  have hq0 : 0 < q := hq.pos
  have hq2 : 2 ≤ q := hq.two_le
  intro k
  induction k with
  | zero => intro _ res _ i hi; omega
  | succ n ih =>
    intro hk res hres i hi
    have hfn := find_nonzero_pivot q d1 F cs pf hcs_lt hpz hpone n (by omega)
    simp only [back_sub, hfn]
    obtain ⟨hslt, hscast⟩ := residual_spec q hq0 hq64 (F.getD n []) res
      (d1 - (cs.getD n 0 + 1)) (cs.getD n 0 + 1) ((F.getD n []).getD d1 0)
      (hbound n (by omega) d1 le_rfl)
    have hv : (if (F.getD n []).getD (cs.getD n 0) 0 ≠ 0 then
          res.set (cs.getD n 0)
            (Utils.mul_mod
              (residual q (F.getD n []) res (cs.getD n 0 + 1)
                (d1 - (cs.getD n 0 + 1)) ((F.getD n []).getD d1 0))
              (Utils.mod_inverse ((F.getD n []).getD (cs.getD n 0) 0) q) q)
        else res)
        = res.set (cs.getD n 0)
            (residual q (F.getD n []) res (cs.getD n 0 + 1)
              (d1 - (cs.getD n 0 + 1)) ((F.getD n []).getD d1 0)) := by
      rw [hpone n (by omega)]
      rw [if_pos (by omega : (1 : ℕ) ≠ 0), Utils.mod_inverse_one q hq2,
        Utils.mul_mod, Nat.mul_one, Nat.mod_eq_of_lt hslt]
    rw [hv]
    by_cases hin : i < n
    · exact ih (by omega) _ (by rw [List.length_set, hres]) i hin
    · have hieq : i = n := by omega
      rw [hieq]
      rw [rowSat_iff q d1 hq0]
      have hel : (back_sub q d1 F n
            (res.set (cs.getD n 0)
              (residual q (F.getD n []) res (cs.getD n 0 + 1)
                (d1 - (cs.getD n 0 + 1)) ((F.getD n []).getD d1 0)))).getD
            (cs.getD n 0) 0
          = residual q (F.getD n []) res (cs.getD n 0 + 1)
              (d1 - (cs.getD n 0 + 1)) ((F.getD n []).getD d1 0) := by
        rw [bs_frozen q d1 hq F cs pf hcs_lt hpz hpone n (by omega) _ _
          (fun i2 hi2 => (hcs_mono i2 n hi2 (by omega)).ne)]
        exact Aux.getD_set_self _ _ _ _ (by
          rw [hres]
          exact hcs_lt n (by omega))
      have hej : ∀ j, cs.getD n 0 < j →
          (back_sub q d1 F n
            (res.set (cs.getD n 0)
              (residual q (F.getD n []) res (cs.getD n 0 + 1)
                (d1 - (cs.getD n 0 + 1)) ((F.getD n []).getD d1 0)))).getD j 0
          = res.getD j 0 := by
        intro j hj
        rw [bs_frozen q d1 hq F cs pf hcs_lt hpz hpone n (by omega) _ _
          (fun i2 hi2 => by
            have := hcs_mono i2 n hi2 (by omega)
            omega)]
        exact Aux.getD_set_ne _ _ _ _ _ (by omega)
      rw [Finset.range_eq_Ico,
        ← Finset.sum_Ico_consecutive _ (Nat.zero_le (cs.getD n 0))
          (le_of_lt (hcs_lt n (by omega))),
        Finset.sum_eq_sum_Ico_succ_bot (hcs_lt n (by omega))]
      have hzero_part : (∑ j in Finset.Ico 0 (cs.getD n 0),
          ((F.getD n []).getD j 0 : ZMod q)
            * ((back_sub q d1 F n
                (res.set (cs.getD n 0)
                  (residual q (F.getD n []) res (cs.getD n 0 + 1)
                    (d1 - (cs.getD n 0 + 1)) ((F.getD n []).getD d1 0)))).getD j 0
              : ZMod q)) = 0 := by
        refine Finset.sum_eq_zero (fun j hj => ?_)
        have hjlt : j < cs.getD n 0 := (Finset.mem_Ico.mp hj).2
        rw [hpz n (by omega) j hjlt]
        simp
      have htail : (∑ j in Finset.Ico (cs.getD n 0 + 1) d1,
          ((F.getD n []).getD j 0 : ZMod q)
            * ((back_sub q d1 F n
                (res.set (cs.getD n 0)
                  (residual q (F.getD n []) res (cs.getD n 0 + 1)
                    (d1 - (cs.getD n 0 + 1)) ((F.getD n []).getD d1 0)))).getD j 0
              : ZMod q))
          = ∑ j in Finset.Ico (cs.getD n 0 + 1) d1,
              ((F.getD n []).getD j 0 : ZMod q) * ((res.getD j 0 : ℕ) : ZMod q) := by
        refine Finset.sum_congr rfl (fun j hj => ?_)
        rw [hej j (Finset.mem_Ico.mp hj).1]
      rw [hzero_part, htail, hel, hpone n (by omega), hscast]
      rw [Finset.sum_Ico_eq_sum_range]
      have hidx : ∀ t ∈ Finset.range (d1 - (cs.getD n 0 + 1)),
          ((F.getD n []).getD (cs.getD n 0 + 1 + t) 0 : ZMod q)
              * ((res.getD (cs.getD n 0 + 1 + t) 0 : ℕ) : ZMod q)
            = ((F.getD n []).getD (cs.getD n 0 + 1 + t) 0 : ZMod q)
              * ((res.getD (cs.getD n 0 + 1 + t) 0 : ℕ) : ZMod q) := fun _ _ => rfl
      push_cast
      ring

end Matrix

namespace Matrix

/-- Length of an original augmented row. -/
theorem origRow_length (M : List (List ℕ)) (y : List ℕ) (d1 i : ℕ) :
    (origRow M y d1 i).length = d1 + 1 := by
  rw [origRow]
  simp

/-- Coefficient entries of an original augmented row. -/
theorem origRow_getD_lt (M : List (List ℕ)) (y : List ℕ) (d1 i j : ℕ) (hj : j < d1) :
    (origRow M y d1 i).getD j 0 = (M.getD i []).getD j 0 := by
  rw [origRow, Aux.getD_append_left _ _ _ _ (by
    rw [List.length_map, List.length_range]
    exact hj), Aux.getD_range_map _ _ _ _ hj]

/-- Target entry of an original augmented row. -/
theorem origRow_getD_rhs (M : List (List ℕ)) (y : List ℕ) (d1 i : ℕ) :
    (origRow M y d1 i).getD d1 0 = y.getD i 0 := by
  rw [origRow, Aux.getD_append_right _ _ _ _ (by
    rw [List.length_map, List.length_range])]
  simp

/-- The invariant holds at the start of forward elimination: the tagged
augmented matrix pairs each original row with its own index. -/
theorem stinv_init (q d1 : ℕ) (M : List (List ℕ)) (y : List ℕ)
    (hq0 : 0 < q) (hy : y.length = M.length)
    (hrows : ∀ row ∈ M, row.length = d1)
    (hMq : ∀ row ∈ M, ∀ v ∈ row, v < q)
    (hyq : ∀ v ∈ y, v < q) :
    StInv q d1 M y (tagged_augmented M y d1) 0 0 [] := by
  have hlen : (tagged_augmented M y d1).length = M.length := by
    rw [tagged_augmented]
    simp
  have hget : ∀ i, i < M.length →
      (tagged_augmented M y d1).getD i (0, []) = (i, origRow M y d1 i) := by
    intro i hi
    rw [tagged_augmented, Aux.getD_range_map _ _ _ _ hi]
  refine ⟨hlen, by omega, ?_, ?_, ?_, rfl, ?_, ?_, ?_, ?_, ?_⟩
  · intro i hi
    rw [hlen] at hi
    rw [hget i hi]
    exact origRow_length M y d1 i
  · intro i hi j hj
    rw [hlen] at hi
    rw [hget i hi]
    simp only
    by_cases hjd : j < d1
    · rw [origRow_getD_lt _ _ _ _ _ hjd]
      have hrow_mem : M.getD i [] ∈ M := Aux.getD_mem M i [] hi
      have hrl : (M.getD i []).length = d1 := hrows _ hrow_mem
      exact hMq _ hrow_mem _ (Aux.getD_mem _ j 0 (by omega))
    · have hjd1 : j = d1 := by omega
      rw [hjd1, origRow_getD_rhs]
      exact hyq _ (Aux.getD_mem y i 0 (by omega))
  · intro i _ _ j hj
    omega
  · intro k hk
    omega
  · intro k k2 _ h2
    omega
  · intro k hk
    exact absurd hk (Nat.not_lt_zero k)
  · intro k hk
    exact absurd hk (Nat.not_lt_zero k)
  · intro e _ i hi
    rw [hlen] at hi
    rw [hget i hi]

/-- Soundness of the solver on pivoted rows: the returned vector satisfies
the original equation of every row that received a pivot, provided the
matrix and target entries are reduced field elements and the modulus is a
machine-word prime. -/
theorem ge_sound (M : List (List ℕ)) (y : List ℕ) (q d1 : ℕ)
    (hd1 : (M.headD []).length = d1)
    (hq : Nat.Prime q) (hq64 : q < 2 ^ 64) (hm : M ≠ [])
    (hy : y.length = M.length)
    (hrows : ∀ row ∈ M, row.length = d1)
    (hMq : ∀ row ∈ M, ∀ v ∈ row, v < q)
    (hyq : ∀ v ∈ y, v < q) :
    ∀ t ∈ ge_pivot_tags M y q,
      RowSat q d1 (origRow M y d1 t) (gaussian_elimination M y q) := by
  intro t ht
  have hlen0 : M.length ≠ 0 := fun h => hm (List.length_eq_zero.mp h)
  have hinv0 := stinv_init q d1 M y hq.pos hy hrows hMq hyq
  obtain ⟨colf, cs, hcolf, hinvf⟩ := tfe_loop_inv q d1 M y hq hq64 d1 0
    (tagged_augmented M y d1) 0 [] hinv0 (by omega)
  have hge : gaussian_elimination M y q
      = back_sub q d1 (fe_loop q d1 0 (build_augmented M y d1) 0).1
          (min (fe_loop q d1 0 (build_augmented M y d1) 0).2 d1)
          (List.replicate d1 0) := by
    rw [gaussian_elimination, if_neg hlen0]
    simp only [hd1]
  have htags : ge_pivot_tags M y q
      = ((tfe_loop q d1 0 (tagged_augmented M y d1) 0).1.take
          (tfe_loop q d1 0 (tagged_augmented M y d1) 0).2).map Prod.fst := by
    rw [ge_pivot_tags, if_neg hlen0]
    simp only [hd1]
  obtain ⟨hb1, hb2⟩ := map_snd_tfe_loop q d1 0 (tagged_augmented M y d1) 0
  have htag_aug : (tagged_augmented M y d1).map Prod.snd = build_augmented M y d1 := by
    rw [tagged_augmented, build_augmented, List.map_map]
    rfl
  rw [htag_aug] at hb1 hb2
  rw [← hb1, ← hb2] at hge
  have hple : (tfe_loop q d1 0 (tagged_augmented M y d1) 0).2 ≤ colf :=
    stinv_p_le_col q d1 M y _ _ colf cs hinvf
  have hpfd1 : (tfe_loop q d1 0 (tagged_augmented M y d1) 0).2 ≤ d1 :=
    le_trans hple hcolf
  rw [Nat.min_eq_left hpfd1] at hge
  have hFgetD : ∀ k,
      (((tfe_loop q d1 0 (tagged_augmented M y d1) 0).1.map Prod.snd).getD k [])
        = (((tfe_loop q d1 0 (tagged_augmented M y d1) 0).1).getD k (0, [])).2 :=
    fun k => Aux.getD_map Prod.snd _ k (0, [])
  have hcs_lt' : ∀ k, k < (tfe_loop q d1 0 (tagged_augmented M y d1) 0).2 →
      cs.getD k 0 < d1 :=
    fun k hk => lt_of_lt_of_le (hinvf.hcs_lt k hk) hcolf
  have hklen : ∀ k, k < (tfe_loop q d1 0 (tagged_augmented M y d1) 0).2 →
      k < ((tfe_loop q d1 0 (tagged_augmented M y d1) 0).1).length :=
    fun k hk => lt_of_lt_of_le hk hinvf.hple
  have hrowlen' : ∀ k, k < (tfe_loop q d1 0 (tagged_augmented M y d1) 0).2 →
      (((tfe_loop q d1 0 (tagged_augmented M y d1) 0).1.map Prod.snd).getD k []).length
        = d1 + 1 := by
    intro k hk
    rw [hFgetD]
    exact hinvf.hrowlen k (hklen k hk)
  have hbound' : ∀ k, k < (tfe_loop q d1 0 (tagged_augmented M y d1) 0).2 →
      ∀ j, j ≤ d1 →
      (((tfe_loop q d1 0 (tagged_augmented M y d1) 0).1.map Prod.snd).getD k []).getD j 0
        < q := by
    intro k hk j hj
    rw [hFgetD]
    exact hinvf.hbound k (hklen k hk) j hj
  have hpz' : ∀ k, k < (tfe_loop q d1 0 (tagged_augmented M y d1) 0).2 →
      ∀ j, j < cs.getD k 0 →
      (((tfe_loop q d1 0 (tagged_augmented M y d1) 0).1.map Prod.snd).getD k []).getD j 0
        = 0 := by
    intro k hk j hj
    rw [hFgetD]
    exact hinvf.hpiv_zero k hk j hj
  have hpone' : ∀ k, k < (tfe_loop q d1 0 (tagged_augmented M y d1) 0).2 →
      (((tfe_loop q d1 0 (tagged_augmented M y d1) 0).1.map Prod.snd).getD k []).getD
        (cs.getD k 0) 0 = 1 := by
    intro k hk
    rw [hFgetD]
    exact hinvf.hpiv_one k hk
  have hsat_final : ∀ i, i < (tfe_loop q d1 0 (tagged_augmented M y d1) 0).2 →
      RowSat q d1 (((tfe_loop q d1 0 (tagged_augmented M y d1) 0).1).getD i (0, [])).2
        (gaussian_elimination M y q) := by
    intro i hi
    have := bs_sat q d1 hq hq64
      ((tfe_loop q d1 0 (tagged_augmented M y d1) 0).1.map Prod.snd) cs
      (tfe_loop q d1 0 (tagged_augmented M y d1) 0).2
      hcs_lt' hinvf.hcs_mono hrowlen' hbound' hpz' hpone'
      (tfe_loop q d1 0 (tagged_augmented M y d1) 0).2 le_rfl
      (List.replicate d1 0) (List.length_replicate d1 0) i hi
    rw [hFgetD] at this
    rwa [hge]
  rw [htags] at ht
  obtain ⟨a, ha_mem, ha_fst⟩ := List.mem_map.mp ht
  obtain ⟨i, hi_pf, hi_len, hi_getD⟩ := Aux.mem_take_imp _ _ a (0, []) ha_mem
  have hiff := hinvf.hsem (gaussian_elimination M y q)
    (fun i2 hi2 => hsat_final i2 hi2) i hi_len
  have hres := hiff.mp (hsat_final i hi_pf)
  rw [hi_getD, ha_fst] at hres
  exact hres

end Matrix

/-- C1 counterexample: with the prime modulus q = 2, the 1×1 system with raw
coefficient 2 (a nonzero `uint64_t` that is 0 in the field) and target 1 has
its only row receive a pivot, yet the returned vector [0] does not satisfy
2·e ≡ 1 (mod 2).  The claim as stated, quantifying over every coefficient
matrix, fails: entries must be reduced field elements. -/
theorem claim1_counterexample :
    Matrix.ge_pivot_tags [[2]] [1] 2 = [0] ∧
      Matrix.gaussian_elimination [[2]] [1] 2 = [0] ∧
      ¬ (Matrix.dotc 1 ([[2]].getD 0 []) (Matrix.gaussian_elimination [[2]] [1] 2)
          ≡ [1].getD 0 0 [MOD 2]) := by
  refine ⟨by decide, by decide, ?_⟩
  intro h
  rw [Nat.ModEq] at h
  revert h
  decide

/-- C1 amended: for every coefficient matrix M (m ≥ 1 rows of length d1 ≥ 1)
and target vector y whose entries are reduced field elements in [0, q), and
every machine-word prime modulus q, the vector returned by
`gaussian_elimination` satisfies, for every equation that received a pivot
during forward elimination, the dot product of that row's original
coefficients with the result ≡ its original target (mod q). -/
theorem claim1_theorem (M : List (List ℕ)) (y : List ℕ) (q : ℕ)
    (hd1pos : 1 ≤ (M.headD []).length)
    (hq : Nat.Prime q) (hq64 : q < 2 ^ 64) (hm : M ≠ [])
    (hy : y.length = M.length)
    (hrows : ∀ row ∈ M, row.length = (M.headD []).length)
    (hMq : ∀ row ∈ M, ∀ v ∈ row, v < q)
    (hyq : ∀ v ∈ y, v < q) :
    ∀ t ∈ Matrix.ge_pivot_tags M y q,
      Matrix.dotc (M.headD []).length (M.getD t [])
          (Matrix.gaussian_elimination M y q)
        ≡ y.getD t 0 [MOD q] := by
  intro t ht
  have h := Matrix.ge_sound M y q (M.headD []).length rfl hq hq64 hm hy hrows
    hMq hyq t ht
  rw [Matrix.RowSat, Matrix.origRow_getD_rhs] at h
  have hdot : Matrix.dotc (M.headD []).length
        (Matrix.origRow M y (M.headD []).length t)
        (Matrix.gaussian_elimination M y q)
      = Matrix.dotc (M.headD []).length (M.getD t [])
          (Matrix.gaussian_elimination M y q) := by
    rw [Matrix.dotc, Matrix.dotc]
    refine Finset.sum_congr rfl (fun j hj => ?_)
    rw [Matrix.origRow_getD_lt _ _ _ _ _ (Finset.mem_range.mp hj)]
  rwa [hdot] at h

/-- Witness for the amended C1 on the 1×1 system x = 1 over Z_2: row 0
receives a pivot and the solution satisfies it. -/
theorem claim1_witness :
    Matrix.dotc 1 ([[1]].getD 0 []) (Matrix.gaussian_elimination [[1]] [1] 2)
      ≡ [1].getD 0 0 [MOD 2] :=
  claim1_theorem [[1]] [1] 2 (by decide) Nat.prime_two (by decide) (by decide)
    (by decide) (by decide) (by decide) (by decide) 0 (by decide)
